import Mathlib

/-!
# Verification of the protein-folding Bellman-Ford core

Shallow embedding of the algorithmic core of the repository
(`protein.py` / `protein_folding.py`): a directed weighted graph built the
way `networkx.DiGraph.add_weighted_edges_from` builds it (nodes in order of
first appearance, adjacency lists in insertion order, duplicate (u,v) edges
overwriting the stored weight in place), the `bellman_ford` method with its
negative-cycle detection and cycle extraction, and `reconstruct_path`.

Edge weights are modelled as rationals (`ℚ`); the Python value
`float('inf')` that initializes every distance is modelled by `none` in
`Option ℚ`, with `pyAdd`/`pyLt` reproducing IEEE semantics of `inf + w` and
of comparisons against `inf` for finite weights.  A Python function that can
raise (`KeyError`) or loop forever is modelled as returning `Option`, with
`none` meaning "does not return a value".
-/

set_option linter.unusedSectionVars false

namespace PG

variable {α : Type} [DecidableEq α]

/-- Adjacency structure of a `networkx.DiGraph`: for every node, in node
insertion order, the list of successors with edge weights, in insertion
order. -/
structure DiGraph (α : Type) where
  adj : List (α × List (α × ℚ))
deriving DecidableEq

/-- `list(G.nodes)`: nodes in insertion order. -/
def DiGraph.nodes (g : DiGraph α) : List α := g.adj.map Prod.fst

/-- `G.edges(data="weight")`: edge triples grouped by source node in node
insertion order, then by target in adjacency insertion order. -/
def DiGraph.edges (g : DiGraph α) : List (α × α × ℚ) :=
  (g.adj.map (fun p => p.2.map (fun q => (p.1, q.1, q.2)))).flatten

/-- Add a node to the adjacency structure if it is not already present
(`networkx` adds endpoints of a new edge automatically). -/
def addNode (adj : List (α × List (α × ℚ))) (x : α) : List (α × List (α × ℚ)) :=
  if adj.any (fun p => decide (p.1 = x)) then adj else adj ++ [(x, [])]

/-- Update the weight stored for target `v` in an adjacency list, keeping
its position, or append it (dict upsert: last write wins). -/
def upsertW (l : List (α × ℚ)) (v : α) (w : ℚ) : List (α × ℚ) :=
  match l with
  | [] => [(v, w)]
  | p :: rest => if p.1 = v then (v, w) :: rest else p :: upsertW rest v w

/-- `G.add_edge(u, v, weight=w)`. -/
def addEdge (adj : List (α × List (α × ℚ))) (u v : α) (w : ℚ) :
    List (α × List (α × ℚ)) :=
  (addNode (addNode adj u) v).map
    (fun p => if p.1 = u then (p.1, upsertW p.2 v w) else p)

/-- `G = nx.DiGraph(); G.add_weighted_edges_from(es)`. -/
def fromEdges (es : List (α × α × ℚ)) : DiGraph α :=
  ⟨es.foldl (fun adj e => addEdge adj e.1 e.2.1 e.2.2) []⟩

/-- The edge list `build_from_pdb` feeds to `add_weighted_edges_from`, as a
function of the ordered residue sequence extracted from the PDB file (the
extraction itself is an external collaborator): consecutive residues joined
by weight `-0.5` edges. -/
def chainEdges (residues : List α) : List (α × α × ℚ) :=
  (residues.zip residues.tail).map (fun p => (p.1, p.2, (-1 : ℚ)/2))

/-- `ProteinGraph.__init__(edges, pdb_file)`; the PDB file is represented by
the residue sequence it parses to.  `if edges:` is Python truthiness: `None`
and the empty list both fail it; a provided PDB file is truthy.  When
neither input is truthy the constructor raises `ValueError`. -/
def proteinGraphInit (edges : Option (List (α × α × ℚ)))
    (pdbResidues : Option (List α)) : Except String (DiGraph α) :=
  match edges with
  | some es =>
    if es.isEmpty then
      match pdbResidues with
      | some rs => .ok (fromEdges (chainEdges rs))
      | none => .error "Must provide either edges or pdb_file"
    else .ok (fromEdges es)
  | none =>
    match pdbResidues with
    | some rs => .ok (fromEdges (chainEdges rs))
    | none => .error "Must provide either edges or pdb_file"

/-! ## Bellman-Ford state -/

/-- The two dictionaries of `bellman_ford`, as total maps.  `dist x = none`
models `distance[x] == float('inf')`; `pred x = none` models
`predecessor[x] is None`. -/
structure BFState (α : Type) where
  dist : α → Option ℚ
  pred : α → Option α

/-- Pointwise map update (`d[x] = y`). -/
def updf {β : Type} (f : α → β) (x : α) (y : β) : α → β :=
  fun z => if z = x then y else f z

/-- Python `distance[u] + w` where `distance[u]` may be `inf` and `w` is
finite: `inf + w == inf`. -/
def pyAdd : Option ℚ → ℚ → Option ℚ
  | none, _ => none
  | some a, w => some (a + w)

/-- Python `x < y` on distances that may be `inf` (`none`): `inf < y` is
false for every `y`; `a < inf` is true for finite `a`. -/
def pyLt : Option ℚ → Option ℚ → Bool
  | none, _ => false
  | some _, none => true
  | some a, some b => decide (a < b)

/-- One execution of the loop body
`if distance[u] + w < distance[v]: distance[v] = distance[u] + w;
predecessor[v] = u`. -/
def relaxEdge (st : BFState α) (e : α × α × ℚ) : BFState α :=
  if pyLt (pyAdd (st.dist e.1) e.2.2) (st.dist e.2.1) then
    ⟨updf st.dist e.2.1 (pyAdd (st.dist e.1) e.2.2),
     updf st.pred e.2.1 (some e.1)⟩
  else st

/-- One full relaxation pass `for u, v, w in self.G.edges(data="weight")`. -/
def relaxPass (g : DiGraph α) (st : BFState α) : BFState α :=
  g.edges.foldl relaxEdge st

/-- `distance = {node: inf}; predecessor = {node: None}; distance[source] = 0`.
Assigning `distance[source] = 0` inserts the key even when `source` is not a
node of the graph. -/
def bfInit (s : α) : BFState α :=
  ⟨updf (fun _ => none) s (some 0), fun _ => none⟩

/-- The state after the `|V| - 1` relaxation passes of `bellman_ford`. -/
def bfRelaxed (g : DiGraph α) (s : α) : BFState α :=
  (relaxPass g)^[g.nodes.length - 1] (bfInit s)

/-- The guard of the detection pass (and of relaxation):
`distance[u] + w < distance[v]`. -/
def canRelax (st : BFState α) (e : α × α × ℚ) : Bool :=
  pyLt (pyAdd (st.dist e.1) e.2.2) (st.dist e.2.1)

/-- The detection pass: the target `v` of the first edge, in
`G.edges(data="weight")` iteration order, that can still be relaxed. -/
def detect (g : DiGraph α) (st : BFState α) : Option α :=
  (g.edges.find? (canRelax st)).map (fun e => e.2.1)

/-- `for _ in range(n): x = predecessor[x]`, where reading
`predecessor[None]` raises `KeyError`; `none` models the raise. -/
def iteratePred (p : α → Option α) : Nat → α → Option α
  | 0, x => some x
  | n + 1, x =>
    match p x with
    | none => none
    | some y => iteratePred p n y

/-- The final `while True` loop of `bellman_ford`: follow predecessors from
`cur`, appending `(prev, cur)` edges, until returning to `c0`.  `none`
models both the `KeyError` raised one iteration after `prev` is `None` and
fuel exhaustion (the Python loop has no step bound: a walk that never
returns to `c0` loops forever, and a terminating run takes at most `|V|`
steps, so fuel `|V| + 1` is faithful). -/
def cycleWalk (p : α → Option α) (c0 : α) : Nat → α → Option (List (α × α))
  | 0, _ => none
  | fuel + 1, cur =>
    match p cur with
    | none => none
    | some prev =>
      if prev = c0 then some [(prev, cur)]
      else (cycleWalk p c0 fuel prev).map (fun l => (prev, cur) :: l)

/-- `ProteinGraph.bellman_ford(source)`.  The result `none` models a raised
exception or divergence; `some (distance, predecessor, cycle_edges)` models
the returned triple, with `cycle_edges = []` the Acyclic outcome and a
non-empty `cycle_edges` the NegativeCycle outcome. -/
def bellman_ford (g : DiGraph α) (s : α) :
    Option ((α → Option ℚ) × (α → Option α) × List (α × α)) :=
  let st := bfRelaxed g s
  match detect g st with
  | none => some (st.dist, st.pred, [])
  | some v =>
    match iteratePred st.pred g.nodes.length v with
    | none => none
    | some c0 =>
      (cycleWalk st.pred c0 (g.nodes.length + 1) c0).map
        (fun es => (st.dist, st.pred, es))

/-- The backward walk of `reconstruct_path`:
`while end is not None: path.insert(0, end); end = predecessor[end]`,
where `keys` is the predecessor dict's key set (exactly the graph's nodes)
and the read `predecessor[end]` raises `KeyError` when `end` is not a key.
The outer `none` models both that raise and divergence on a cyclic map. -/
def buildPath (keys : List α) (p : α → Option α) : Nat → α → Option (List α)
  | 0, _ => none
  | fuel + 1, e =>
    if e ∈ keys then
      match p e with
      | none => some [e]
      | some e2 => (buildPath keys p fuel e2).map (fun l => l ++ [e])
    else none

/-- `ProteinGraph.reconstruct_path(predecessor, start, end)`: the outer
`none` models a raised `KeyError` (a lookup outside the dict's key set) or
divergence; `some none` models the Python `None` result ("no path");
`some (some path)` a returned node sequence. -/
def reconstruct_path (keys : List α) (p : α → Option α) (start e : α)
    (fuel : Nat) : Option (Option (List α)) :=
  (buildPath keys p fuel e).map
    (fun path => if path.head? = some start then some path else none)

/-! ## Observable projections of `bellman_ford` -/

/-- The `cycle_edges` component of a completed `bellman_ford` run. -/
def bfCycle (g : DiGraph α) (s : α) : Option (List (α × α)) :=
  (bellman_ford g s).map (fun r => r.2.2)

/-- The distance reported for one node by a completed `bellman_ford` run. -/
def bfDistAt (g : DiGraph α) (s v : α) : Option (Option ℚ) :=
  (bellman_ford g s).map (fun r => r.1 v)

/-- `lowest_energy_path`'s use of the predecessor map: run `bellman_ford`,
then `reconstruct_path(predecessor, source, target)` (walk fuel `|V| + 1`
suffices for every terminating walk). -/
def runReconstruct (g : DiGraph α) (s t : α) : Option (Option (Option (List α))) :=
  (bellman_ford g s).map
    (fun r => reconstruct_path g.nodes r.2.1 s t (g.nodes.length + 1))

/-! ## Walks, cycles, reachability -/

/-- `isWalkFrom g a es b`: the edge triples `es` form a directed walk from
`a` to `b` using only edges of `g`. -/
def isWalkFrom (g : DiGraph α) : α → List (α × α × ℚ) → α → Bool
  | a, [], b => decide (a = b)
  | a, e :: es, b => decide (a = e.1) && decide (e ∈ g.edges) && isWalkFrom g e.2.1 es b

/-- Total weight of a walk. -/
def walkWeight (es : List (α × α × ℚ)) : ℚ := (es.map (fun e => e.2.2)).sum

/-- `v` is reachable from `s` by a directed walk (the empty walk included). -/
def Reachable (g : DiGraph α) (s v : α) : Prop :=
  ∃ es, isWalkFrom g s es v = true

/-- A (simple) cycle at `a`: a non-empty closed walk whose edge sources are
pairwise distinct. -/
def IsCycleAt (g : DiGraph α) (a : α) (es : List (α × α × ℚ)) : Prop :=
  es ≠ [] ∧ isWalkFrom g a es a = true ∧ (es.map (fun e => e.1)).Nodup

/-- Some cycle of strictly negative total weight is reachable from `s`. -/
def NegCycleReachable (g : DiGraph α) (s : α) : Prop :=
  ∃ p a es, isWalkFrom g s p a = true ∧ IsCycleAt g a es ∧ walkWeight es < 0

/-- The weight of the unique edge from `u` to `v`, if present. -/
def edgeWeight (g : DiGraph α) (u v : α) : Option ℚ :=
  (g.edges.find? (fun e => decide (e.1 = u) && decide (e.2.1 = v))).map
    (fun e => e.2.2)

/-- Summed graph weight of a list of `cycle_edges` pairs (`none` if some
pair is not an edge of the graph). -/
def cycleEdgesWeight (g : DiGraph α) : List (α × α) → Option ℚ
  | [] => some 0
  | e :: es =>
    match edgeWeight g e.1 e.2, cycleEdgesWeight g es with
    | some w, some rest => some (w + rest)
    | _, _ => none

/-! ## Spec-side definitions, used only to compare with the code -/

/-- Modelled from the spec: the relaxation guard as the spec words it,
"if distance(u) is finite and `distance(u) + w < distance(v)`" — an explicit
finiteness test on `distance(u)` before the comparison. -/
def specGuard (st : BFState α) (e : α × α × ℚ) : Bool :=
  match st.dist e.1 with
  | none => false
  | some du => pyLt (some (du + e.2.2)) (st.dist e.2.1)

/-- Modelled from the spec: scan a list of edges in the order given and
return the target of the first one whose guard still fires (the spec's
description of anchor selection, parameterized by the scan order). -/
def firstRelaxTarget (st : BFState α) : List (α × α × ℚ) → Option α
  | [] => none
  | e :: es => if canRelax st e then some e.2.1 else firstRelaxTarget st es

/-! ## Concrete graphs from the repository's examples -/

/-- Scenario 1 of the spec: the acyclic seven-edge example graph. -/
def exAcyclic : DiGraph String :=
  fromEdges [("U", "A", -2), ("A", "B", (-3)/2), ("B", "C", -3), ("C", "F", -2),
             ("B", "D", 1), ("D", "E", -4), ("E", "F", 2)]

/-- Scenario 2 of the spec: the same edges plus the back edge `C→A : -2.5`,
creating the negative cycle `A→B→C→A`. -/
def exNegCycle : DiGraph String :=
  fromEdges [("U", "A", -2), ("A", "B", (-3)/2), ("B", "C", -3), ("C", "F", -2),
             ("B", "D", 1), ("D", "E", -4), ("E", "F", 2), ("C", "A", (-5)/2)]

/-- A single node carrying a negative self-loop. -/
def exSelfLoop : DiGraph String := fromEdges [("A", "A", -1)]

/-- Edge list of a graph on which the detection pass meets two still
relaxable edges whose order differs between edge insertion order and the
adjacency iteration order the code uses. -/
def exAnchorEdges : List (String × String × ℚ) :=
  [("A", "x", 1000), ("B", "y", 0), ("A", "z", 0), ("S", "A", 0),
   ("A", "C", -1), ("C", "A", -1), ("C", "B", 0), ("S", "x", 0)]

/-- The graph built from `exAnchorEdges`. -/
def exAnchorG : DiGraph String := fromEdges exAnchorEdges

/-- A graph with two weakly connected components, used to exhibit nodes
unreachable from the source. -/
def exTwoComp : DiGraph String := fromEdges [("A", "B", 1), ("C", "D", 2)]

/-! ## Order on distances and well-formedness of the graph encoding -/

/-- `distLE a b`: `a ≤ b` in the order on distances where `none` is `+∞`. -/
def distLE : Option ℚ → Option ℚ → Prop
  | _, none => True
  | none, some _ => False
  | some a, some b => a ≤ b

/-- Well-formedness of a `networkx` adjacency structure: node keys are
pairwise distinct, each adjacency list has pairwise distinct targets, and
every target is itself a node.  `fromEdges` always produces this. -/
def AdjWF (adj : List (α × List (α × ℚ))) : Prop :=
  (adj.map Prod.fst).Nodup ∧
  ∀ p ∈ adj, (p.2.map Prod.fst).Nodup ∧ ∀ q ∈ p.2, q.1 ∈ adj.map Prod.fst

/-! ## Invariants of the Bellman-Ford state -/

/-- Every finite distance is witnessed by a walk from the source of that
exact weight. -/
def DistSound (g : DiGraph α) (s : α) (st : BFState α) : Prop :=
  ∀ v d, st.dist v = some d → ∃ es, isWalkFrom g s es v = true ∧ walkWeight es = d

/-- Every predecessor entry `pred x = u` is backed by an edge `(u, x)` of
the graph, with both endpoint distances finite and
`dist u + w(u, x) ≤ dist x`. -/
def PredOK (g : DiGraph α) (st : BFState α) : Prop :=
  ∀ x u, st.pred x = some u →
    ∃ w dx du, edgeWeight g u x = some w ∧
      st.dist x = some dx ∧ st.dist u = some du ∧ du + w ≤ dx

/-- A node with a predecessor has dropped strictly below its initial
distance. -/
def PredDrop (s : α) (st : BFState α) : Prop :=
  ∀ x, st.pred x ≠ none → pyLt (st.dist x) ((bfInit s).dist x) = true

/-- Predecessor values are nodes of the graph. -/
def PredInNodes (g : DiGraph α) (st : BFState α) : Prop :=
  ∀ x u, st.pred x = some u → u ∈ g.nodes

/-- Total graph weight of the first `n` backward predecessor steps from
`x` (`none` if a predecessor is missing or a step is not an edge). -/
def predWalkWeight (g : DiGraph α) (st : BFState α) : Nat → α → Option ℚ
  | 0, _ => some 0
  | n + 1, x =>
    match st.pred x with
    | none => none
    | some u =>
      match edgeWeight g u x, predWalkWeight g st n u with
      | some w, some rest => some (w + rest)
      | _, _ => none

/-- Every cycle of the predecessor map has strictly negative total graph
weight. -/
def PredCyclesNeg (g : DiGraph α) (st : BFState α) : Prop :=
  ∀ c k, 1 ≤ k → iteratePred st.pred k c = some c →
    ∃ W, predWalkWeight g st k c = some W ∧ W < 0

/-- All invariants maintained by the relaxation phase, together with the
pointwise bound by the initial distances. -/
def BFInv (g : DiGraph α) (s : α) (st : BFState α) : Prop :=
  DistSound g s st ∧ PredOK g st ∧ PredDrop s st ∧ PredInNodes g st ∧
    PredCyclesNeg g st ∧ ∀ x, distLE (st.dist x) ((bfInit s).dist x)

/-- The invariants above except for the negativity of predecessor cycles. -/
def BFInvLite (g : DiGraph α) (s : α) (st : BFState α) : Prop :=
  PredOK g st ∧ PredDrop s st ∧ PredInNodes g st ∧
    ∀ x, distLE (st.dist x) ((bfInit s).dist x)

/-! # Theorems -/

/-! ## Pointwise updates and the extended order -/

theorem updf_eval {β : Type} (f : α → β) (x : α) (y : β) (z : α) :
    updf f x y z = if z = x then y else f z := rfl

theorem updf_self {β : Type} (f : α → β) (x : α) (y : β) : updf f x y x = y := by
  simp [updf]

theorem updf_ne {β : Type} (f : α → β) (x : α) (y : β) {z : α} (h : z ≠ x) :
    updf f x y z = f z := by
  simp [updf, h]

theorem distLE_refl (a : Option ℚ) : distLE a a := by
  cases a <;> simp [distLE]

theorem distLE_none (a : Option ℚ) : distLE a none := by
  cases a <;> simp [distLE]

theorem distLE_trans {a b c : Option ℚ} (h1 : distLE a b) (h2 : distLE b c) :
    distLE a c := by
  cases a <;> cases b <;> cases c <;> simp_all [distLE]
  exact h1.trans h2

theorem distLE_some_right {a : Option ℚ} {x : ℚ} (h : distLE a (some x)) :
    ∃ y, a = some y ∧ y ≤ x := by
  cases a with
  | none => exact absurd h (by simp [distLE])
  | some y => exact ⟨y, rfl, h⟩

theorem pyLt_false_iff_distLE (a b : Option ℚ) : pyLt a b = false ↔ distLE b a := by
  cases a <;> cases b <;> simp [pyLt, distLE, not_lt]

theorem pyLt_true_distLE {a b : Option ℚ} (h : pyLt a b = true) : distLE a b := by
  cases a <;> cases b <;> simp_all [pyLt, distLE]
  exact le_of_lt h

theorem pyLt_none_left (b : Option ℚ) : pyLt none b = false := rfl

theorem pyLt_true_some_left {a b : Option ℚ} (h : pyLt a b = true) :
    ∃ x, a = some x := by
  cases a with
  | none => exact absurd h (by simp [pyLt])
  | some x => exact ⟨x, rfl⟩

theorem pyAdd_mono {a b : Option ℚ} (w : ℚ) (h : distLE a b) :
    distLE (pyAdd a w) (pyAdd b w) := by
  cases a <;> cases b <;> simp_all [pyAdd, distLE]

theorem pyAdd_eq_some {a : Option ℚ} {w x : ℚ} (h : pyAdd a w = some x) :
    ∃ q, a = some q ∧ q + w = x := by
  cases a with
  | none => cases h
  | some q => exact ⟨q, rfl, by simpa [pyAdd] using h⟩

theorem bfInit_dist_self (s : α) : (bfInit s).dist s = some 0 := by
  show updf (fun _ : α => (none : Option ℚ)) s (some 0) s = some 0
  exact updf_self _ _ _

theorem bfInit_dist_ne {s v : α} (h : v ≠ s) : (bfInit s).dist v = none := by
  show updf (fun _ : α => (none : Option ℚ)) s (some 0) v = none
  exact updf_ne _ _ _ h

theorem bfInit_pred (s v : α) : (bfInit s).pred v = none := rfl

/-! ## Effects of a single relaxation step -/

theorem relaxEdge_not_fired {st : BFState α} {e : α × α × ℚ}
    (h : canRelax st e = false) : relaxEdge st e = st := by
  simp [relaxEdge, canRelax] at h ⊢
  simp [h]

theorem relaxEdge_fired {st : BFState α} {e : α × α × ℚ}
    (h : canRelax st e = true) :
    relaxEdge st e =
      ⟨updf st.dist e.2.1 (pyAdd (st.dist e.1) e.2.2),
       updf st.pred e.2.1 (some e.1)⟩ := by
  simp [relaxEdge, canRelax] at h ⊢
  simp [h]

theorem relaxEdge_dist_le (st : BFState α) (e : α × α × ℚ) (x : α) :
    distLE ((relaxEdge st e).dist x) (st.dist x) := by
  by_cases h : canRelax st e = true
  · rw [relaxEdge_fired h]
    show distLE (updf st.dist e.2.1 (pyAdd (st.dist e.1) e.2.2) x) (st.dist x)
    by_cases hx : x = e.2.1
    · rw [hx, updf_self]
      exact pyLt_true_distLE h
    · rw [updf_ne _ _ _ hx]
      exact distLE_refl _
  · rw [relaxEdge_not_fired (Bool.not_eq_true _ ▸ h)]
    exact distLE_refl _

theorem relaxEdge_dist_other {st : BFState α} {e : α × α × ℚ} {x : α}
    (hx : x ≠ e.2.1) : (relaxEdge st e).dist x = st.dist x := by
  by_cases h : canRelax st e = true
  · rw [relaxEdge_fired h]; exact updf_ne _ _ _ hx
  · rw [relaxEdge_not_fired (Bool.not_eq_true _ ▸ h)]

theorem relaxEdge_pred_other {st : BFState α} {e : α × α × ℚ} {x : α}
    (hx : x ≠ e.2.1) : (relaxEdge st e).pred x = st.pred x := by
  by_cases h : canRelax st e = true
  · rw [relaxEdge_fired h]; exact updf_ne _ _ _ hx
  · rw [relaxEdge_not_fired (Bool.not_eq_true _ ▸ h)]

theorem foldl_relax_dist_le (l : List (α × α × ℚ)) (st : BFState α) (x : α) :
    distLE ((l.foldl relaxEdge st).dist x) (st.dist x) := by
  induction l generalizing st with
  | nil => exact distLE_refl _
  | cons e l ih =>
    exact distLE_trans (ih (relaxEdge st e)) (relaxEdge_dist_le st e x)

theorem relaxPass_dist_le (g : DiGraph α) (st : BFState α) (x : α) :
    distLE ((relaxPass g st).dist x) (st.dist x) :=
  foldl_relax_dist_le _ _ _

theorem iterate_relaxPass_dist_le (g : DiGraph α) (n : Nat) (st : BFState α) (x : α) :
    distLE (((relaxPass g)^[n] st).dist x) (st.dist x) := by
  induction n generalizing st with
  | zero => exact distLE_refl _
  | succ n ih =>
    rw [Function.iterate_succ_apply]
    exact distLE_trans (ih (relaxPass g st)) (relaxPass_dist_le g st x)

theorem bfRelaxed_dist_le_init (g : DiGraph α) (s x : α) :
    distLE ((bfRelaxed g s).dist x) ((bfInit s).dist x) :=
  iterate_relaxPass_dist_le g _ (bfInit s) x

/-! ## Well-formedness of graphs built by the constructors -/

theorem any_key_iff (adj : List (α × List (α × ℚ))) (x : α) :
    adj.any (fun p => decide (p.1 = x)) = true ↔ x ∈ adj.map Prod.fst := by
  rw [List.any_eq_true]
  constructor
  · rintro ⟨p, hp, hdec⟩
    exact List.mem_map.mpr ⟨p, hp, of_decide_eq_true hdec⟩
  · intro h
    obtain ⟨p, hp, heq⟩ := List.mem_map.mp h
    exact ⟨p, hp, decide_eq_true heq⟩

theorem mem_addNode_fst (adj : List (α × List (α × ℚ))) (x y : α) :
    y ∈ (addNode adj x).map Prod.fst ↔ y ∈ adj.map Prod.fst ∨ y = x := by
  unfold addNode
  by_cases h : adj.any (fun p => decide (p.1 = x)) = true
  · rw [if_pos h]
    rw [any_key_iff] at h
    exact ⟨Or.inl, fun hy => hy.elim id (fun e => e ▸ h)⟩
  · rw [if_neg h]
    rw [List.map_append, List.mem_append]
    simp

theorem self_mem_addNode_fst (adj : List (α × List (α × ℚ))) (x : α) :
    x ∈ (addNode adj x).map Prod.fst :=
  (mem_addNode_fst adj x x).mpr (Or.inr rfl)

theorem mem_addNode_entry {adj : List (α × List (α × ℚ))} {x : α}
    {p : α × List (α × ℚ)} (h : p ∈ addNode adj x) : p ∈ adj ∨ p = (x, []) := by
  unfold addNode at h
  by_cases hc : adj.any (fun q => decide (q.1 = x)) = true
  · rw [if_pos hc] at h; exact Or.inl h
  · rw [if_neg hc] at h
    rcases List.mem_append.mp h with h1 | h1
    · exact Or.inl h1
    · simp at h1; exact Or.inr h1

theorem addNode_WF {adj : List (α × List (α × ℚ))} (x : α) (h : AdjWF adj) :
    AdjWF (addNode adj x) := by
  obtain ⟨hkeys, hentries⟩ := h
  unfold AdjWF addNode
  by_cases hc : adj.any (fun q => decide (q.1 = x)) = true
  · rw [if_pos hc]; exact ⟨hkeys, hentries⟩
  · rw [if_neg hc]
    constructor
    · rw [List.map_append]
      simp only [List.map_cons, List.map_nil]
      rw [List.nodup_append]
      refine ⟨hkeys, List.nodup_singleton x, ?_⟩
      intro a ha hb
      simp at hb
      subst hb
      exact hc ((any_key_iff adj a).mpr ha)
    · intro p hp
      rcases List.mem_append.mp hp with h1 | h1
      · obtain ⟨h2, h3⟩ := hentries p h1
        refine ⟨h2, fun q hq => ?_⟩
        rw [List.map_append]
        exact List.mem_append_left _ (h3 q hq)
      · simp at h1
        subst h1
        exact ⟨List.nodup_nil, by simp⟩

theorem upsertW_fst_subset {l : List (α × ℚ)} (v : α) (w : ℚ) {y : α}
    (h : y ∈ (upsertW l v w).map Prod.fst) : y ∈ l.map Prod.fst ∨ y = v := by
  induction l with
  | nil =>
    unfold upsertW at h
    obtain ⟨q, hq, rfl⟩ := List.mem_map.mp h
    rcases List.mem_singleton.mp hq with rfl
    exact Or.inr rfl
  | cons p rest ih =>
    unfold upsertW at h
    by_cases hp : p.1 = v
    · rw [if_pos hp] at h
      obtain ⟨q, hq, rfl⟩ := List.mem_map.mp h
      rcases List.mem_cons.mp hq with rfl | h1
      · exact Or.inr rfl
      · exact Or.inl (List.mem_map.mpr ⟨q, List.mem_cons_of_mem _ h1, rfl⟩)
    · rw [if_neg hp] at h
      obtain ⟨q, hq, rfl⟩ := List.mem_map.mp h
      rcases List.mem_cons.mp hq with rfl | h1
      · exact Or.inl (List.mem_map.mpr ⟨q, List.mem_cons_self _ _, rfl⟩)
      · rcases ih (List.mem_map.mpr ⟨q, h1, rfl⟩) with h2 | h2
        · exact Or.inl (by rw [List.map_cons]; exact List.mem_cons_of_mem _ h2)
        · exact Or.inr h2

theorem upsertW_fst_nodup {l : List (α × ℚ)} (v : α) (w : ℚ)
    (h : (l.map Prod.fst).Nodup) : ((upsertW l v w).map Prod.fst).Nodup := by
  induction l with
  | nil => unfold upsertW; simp
  | cons p rest ih =>
    unfold upsertW
    rw [List.map_cons, List.nodup_cons] at h
    by_cases hp : p.1 = v
    · rw [if_pos hp]
      rw [List.map_cons, List.nodup_cons]
      exact ⟨fun hv => h.1 (hp ▸ hv), h.2⟩
    · rw [if_neg hp]
      rw [List.map_cons, List.nodup_cons]
      refine ⟨fun hmem => ?_, ih h.2⟩
      rcases upsertW_fst_subset v w hmem with h1 | h1
      · exact h.1 h1
      · exact hp h1

theorem mem_upsertW {l : List (α × ℚ)} {v : α} {w : ℚ} {q : α × ℚ}
    (h : q ∈ upsertW l v w) : q ∈ l ∨ q = (v, w) := by
  induction l with
  | nil => simp [upsertW] at h; exact Or.inr h
  | cons p rest ih =>
    unfold upsertW at h
    by_cases hp : p.1 = v
    · rw [if_pos hp] at h
      rcases List.mem_cons.mp h with rfl | h1
      · exact Or.inr rfl
      · exact Or.inl (List.mem_cons_of_mem _ h1)
    · rw [if_neg hp] at h
      rcases List.mem_cons.mp h with rfl | h1
      · exact Or.inl (List.mem_cons_self _ _)
      · rcases ih h1 with h2 | h2
        · exact Or.inl (List.mem_cons_of_mem _ h2)
        · exact Or.inr h2

theorem addEdge_fst (adj : List (α × List (α × ℚ))) (u v : α) (w : ℚ) :
    (addEdge adj u v w).map Prod.fst = (addNode (addNode adj u) v).map Prod.fst := by
  unfold addEdge
  rw [List.map_map]
  apply List.map_congr_left
  intro p _
  by_cases hp : p.1 = u
  · simp [hp]
  · simp [hp]

theorem addEdge_WF {adj : List (α × List (α × ℚ))} (u v : α) (w : ℚ)
    (h : AdjWF adj) : AdjWF (addEdge adj u v w) := by
  have hbase : AdjWF (addNode (addNode adj u) v) := addNode_WF v (addNode_WF u h)
  obtain ⟨hkeys, hentries⟩ := hbase
  constructor
  · rw [addEdge_fst]; exact hkeys
  · intro p hp
    unfold addEdge at hp
    obtain ⟨p0, hp0, hpeq⟩ := List.mem_map.mp hp
    by_cases hu : p0.1 = u
    · rw [if_pos hu] at hpeq
      subst hpeq
      obtain ⟨h2, h3⟩ := hentries p0 hp0
      constructor
      · exact upsertW_fst_nodup v w h2
      · intro q hq
        rw [addEdge_fst]
        rcases mem_upsertW hq with h4 | h4
        · exact h3 q h4
        · subst h4
          exact self_mem_addNode_fst _ v
    · rw [if_neg hu] at hpeq
      subst hpeq
      obtain ⟨h2, h3⟩ := hentries p0 hp0
      refine ⟨h2, fun q hq => ?_⟩
      rw [addEdge_fst]
      exact h3 q hq

theorem fromEdges_WF (es : List (α × α × ℚ)) : AdjWF (fromEdges es).adj := by
  suffices h : ∀ adj, AdjWF adj →
      AdjWF (es.foldl (fun a e => addEdge a e.1 e.2.1 e.2.2) adj) by
    exact h [] ⟨List.nodup_nil, by simp⟩
  induction es with
  | nil => intro adj h; exact h
  | cons e es ih =>
    intro adj h
    exact ih _ (addEdge_WF _ _ _ h)

theorem mem_edges_iff {g : DiGraph α} {a b : α} {w : ℚ} :
    (a, b, w) ∈ g.edges ↔ ∃ l, (a, l) ∈ g.adj ∧ (b, w) ∈ l := by
  unfold DiGraph.edges
  rw [List.mem_flatten]
  constructor
  · rintro ⟨sub, hsub, hmem⟩
    obtain ⟨p, hp, rfl⟩ := List.mem_map.mp hsub
    obtain ⟨q, hq, heq⟩ := List.mem_map.mp hmem
    have h1 : p.1 = a := congrArg Prod.fst heq
    have h2 : q.1 = b := congrArg (fun t => t.2.1) heq
    have h3 : q.2 = w := congrArg (fun t => t.2.2) heq
    refine ⟨p.2, ?_, ?_⟩
    · have hpa : (a, p.2) = p := by rw [← h1]
      rw [hpa]; exact hp
    · have hqb : (b, w) = q := by rw [← h2, ← h3]
      rw [hqb]; exact hq
  · rintro ⟨l, hl, hmem⟩
    refine ⟨l.map (fun q => (a, q.1, q.2)), List.mem_map.mpr ⟨(a, l), hl, rfl⟩, ?_⟩
    exact List.mem_map.mpr ⟨(b, w), hmem, rfl⟩

theorem edge_endpoints_mem {g : DiGraph α} (hwf : AdjWF g.adj) {a b : α} {w : ℚ}
    (h : (a, b, w) ∈ g.edges) : a ∈ g.nodes ∧ b ∈ g.nodes := by
  obtain ⟨l, hl, hm⟩ := mem_edges_iff.mp h
  obtain ⟨-, htargets⟩ := hwf.2 (a, l) hl
  constructor
  · exact List.mem_map.mpr ⟨(a, l), hl, rfl⟩
  · exact htargets (b, w) hm

theorem assoc_find_eq {β : Type} (l : List (α × β)) (b : α) (w : β)
    (hnd : (l.map Prod.fst).Nodup) (hmem : (b, w) ∈ l) :
    l.find? (fun q => decide (q.1 = b)) = some (b, w) := by
  induction l with
  | nil => cases hmem
  | cons p rest ih =>
    simp only [List.map_cons, List.nodup_cons] at hnd
    rcases List.mem_cons.mp hmem with rfl | h1
    · rw [List.find?_cons_of_pos _ (by simp)]
    · have hpb : p.1 ≠ b := by
        intro hc
        exact hnd.1 (by rw [hc]; exact List.mem_map.mpr ⟨(b, w), h1, rfl⟩)
      rw [List.find?_cons_of_neg _ (by simp [hpb])]
      exact ih hnd.2 h1

theorem find?_ext {β : Type} {p q : β → Bool} (l : List β)
    (h : ∀ a ∈ l, p a = q a) : l.find? p = l.find? q := by
  induction l with
  | nil => rfl
  | cons x xs ih =>
    have hx := h x (List.mem_cons_self _ _)
    by_cases hp : p x = true
    · rw [List.find?_cons_of_pos _ hp, List.find?_cons_of_pos _ (hx ▸ hp)]
    · have hp2 : p x = false := Bool.not_eq_true _ ▸ hp
      rw [List.find?_cons_of_neg _ (by simp [hp2]), List.find?_cons_of_neg _ (by simp [← hx, hp2])]
      exact ih (fun a ha => h a (List.mem_cons_of_mem _ ha))

theorem group_find (a : α) (l2 : List (α × ℚ)) (b : α) :
    (l2.map (fun q => (a, q.1, q.2))).find?
        (fun e => decide (e.1 = a) && decide (e.2.1 = b)) =
      (l2.find? (fun q => decide (q.1 = b))).map (fun q => (a, q.1, q.2)) := by
  rw [List.find?_map]
  have hext : ∀ q ∈ l2,
      ((fun e : α × α × ℚ => decide (e.1 = a) && decide (e.2.1 = b)) ∘
        (fun q : α × ℚ => (a, q.1, q.2))) q = (fun q : α × ℚ => decide (q.1 = b)) q := by
    intro q _
    simp
  rw [find?_ext l2 hext]

theorem group_find_none {a0 a : α} (hne : a0 ≠ a) (l2 : List (α × ℚ)) (b : α) :
    (l2.map (fun q => (a0, q.1, q.2))).find?
      (fun e => decide (e.1 = a) && decide (e.2.1 = b)) = none := by
  rw [List.find?_eq_none]
  intro e he
  obtain ⟨q, _, rfl⟩ := List.mem_map.mp he
  simp [hne]

theorem edgeWeight_of_mem {g : DiGraph α} (hwf : AdjWF g.adj) {a b : α} {w : ℚ}
    (h : (a, b, w) ∈ g.edges) : edgeWeight g a b = some w := by
  obtain ⟨l, hl, hm⟩ := mem_edges_iff.mp h
  obtain ⟨hkeys, hentries⟩ := hwf
  have hentry : ∀ p ∈ g.adj, (p.2.map Prod.fst).Nodup := fun p hp => (hentries p hp).1
  unfold edgeWeight DiGraph.edges
  clear hentries h
  revert hkeys hentry hl
  generalize g.adj = adj
  intro hl hkeys hentry
  induction adj with
  | nil => cases hl
  | cons p rest ih =>
    rw [List.map_cons, List.flatten_cons, List.find?_append]
    rw [List.map_cons, List.nodup_cons] at hkeys
    rcases List.mem_cons.mp hl with heq | h1
    · have hp1 : p.1 = a := by rw [← heq]
      have hp2 : p.2 = l := by rw [← heq]
      have hnd : (l.map Prod.fst).Nodup := by
        rw [← hp2]; exact hentry p (List.mem_cons_self _ _)
      rw [hp1, hp2, group_find a l b, assoc_find_eq l b w hnd hm]
      simp [Option.or]
    · have hp1 : p.1 ≠ a := by
        intro hc
        exact hkeys.1 (by rw [hc]; exact List.mem_map.mpr ⟨(a, l), h1, rfl⟩)
      rw [group_find_none hp1, Option.none_or]
      exact ih h1 hkeys.2 (fun p2 hp2 => hentry p2 (List.mem_cons_of_mem _ hp2))

theorem nodes_nodup {g : DiGraph α} (hwf : AdjWF g.adj) : g.nodes.Nodup := hwf.1

/-! ## Walks -/

theorem isWalkFrom_nil {g : DiGraph α} {a b : α} :
    isWalkFrom g a [] b = true ↔ a = b := by
  simp [isWalkFrom]

theorem isWalkFrom_cons {g : DiGraph α} {a b : α} {e : α × α × ℚ}
    {es : List (α × α × ℚ)} :
    isWalkFrom g a (e :: es) b = true ↔
      a = e.1 ∧ e ∈ g.edges ∧ isWalkFrom g e.2.1 es b = true := by
  simp [isWalkFrom, Bool.and_eq_true, and_assoc]

theorem isWalkFrom_append {g : DiGraph α} {a b : α} {es1 es2 : List (α × α × ℚ)} :
    isWalkFrom g a (es1 ++ es2) b = true ↔
      ∃ c, isWalkFrom g a es1 c = true ∧ isWalkFrom g c es2 b = true := by
  induction es1 generalizing a with
  | nil =>
    simp only [List.nil_append]
    constructor
    · intro h
      exact ⟨a, isWalkFrom_nil.mpr rfl, h⟩
    · rintro ⟨c, hc, h⟩
      rw [isWalkFrom_nil.mp hc]
      exact h
  | cons e es ih =>
    rw [List.cons_append]
    constructor
    · intro h
      obtain ⟨h1, h2, h3⟩ := isWalkFrom_cons.mp h
      obtain ⟨c, hc, h4⟩ := ih.mp h3
      exact ⟨c, isWalkFrom_cons.mpr ⟨h1, h2, hc⟩, h4⟩
    · rintro ⟨c, hc, h⟩
      obtain ⟨h1, h2, h3⟩ := isWalkFrom_cons.mp hc
      exact isWalkFrom_cons.mpr ⟨h1, h2, ih.mpr ⟨c, h3, h⟩⟩

theorem isWalkFrom_single {g : DiGraph α} {a b : α} {e : α × α × ℚ} :
    isWalkFrom g a [e] b = true ↔ a = e.1 ∧ e ∈ g.edges ∧ e.2.1 = b := by
  rw [isWalkFrom_cons]
  simp [isWalkFrom_nil]

theorem walkWeight_nil : walkWeight ([] : List (α × α × ℚ)) = 0 := rfl

theorem walkWeight_cons (e : α × α × ℚ) (es : List (α × α × ℚ)) :
    walkWeight (e :: es) = e.2.2 + walkWeight es := by
  simp [walkWeight]

theorem walkWeight_append (es1 es2 : List (α × α × ℚ)) :
    walkWeight (es1 ++ es2) = walkWeight es1 + walkWeight es2 := by
  simp [walkWeight]

theorem walk_last_mem_nodes {g : DiGraph α} (hwf : AdjWF g.adj) {a b : α}
    {es : List (α × α × ℚ)} (hne : es ≠ []) (hw : isWalkFrom g a es b = true) :
    b ∈ g.nodes := by
  induction es generalizing a with
  | nil => exact absurd rfl hne
  | cons e es ih =>
    obtain ⟨-, h2, h3⟩ := isWalkFrom_cons.mp hw
    cases es with
    | nil =>
      have h3b : e.2.1 = b := isWalkFrom_nil.mp h3
      have hmem := (edge_endpoints_mem hwf
        (show (e.1, e.2.1, e.2.2) ∈ g.edges from h2)).2
      rw [← h3b]
      exact hmem
    | cons f fs => exact ih (by simp) h3

theorem walk_start_mem_nodes {g : DiGraph α} (hwf : AdjWF g.adj) {a b : α}
    {es : List (α × α × ℚ)} (hne : es ≠ []) (hw : isWalkFrom g a es b = true) :
    a ∈ g.nodes := by
  cases es with
  | nil => exact absurd rfl hne
  | cons e es =>
    obtain ⟨h1, h2, -⟩ := isWalkFrom_cons.mp hw
    have := (edge_endpoints_mem hwf h2).1
    rw [h1]
    exact this

/-! ## The distance-soundness invariant (every finite distance is a walk weight) -/

theorem distSound_init (g : DiGraph α) (s : α) : DistSound g s (bfInit s) := by
  intro v d hv
  have hv2 : updf (fun _ : α => (none : Option ℚ)) s (some 0) v = some d := hv
  by_cases hvs : v = s
  · subst hvs
    rw [updf_self] at hv2
    cases hv2
    exact ⟨[], isWalkFrom_nil.mpr rfl, rfl⟩
  · rw [updf_ne _ _ _ hvs] at hv2
    cases hv2

theorem relaxEdge_distSound {g : DiGraph α} {s : α} {st : BFState α}
    {e : α × α × ℚ} (he : e ∈ g.edges) (h : DistSound g s st) :
    DistSound g s (relaxEdge st e) := by
  intro v d hv
  by_cases hc : canRelax st e = true
  · have hd : (relaxEdge st e).dist v =
        updf st.dist e.2.1 (pyAdd (st.dist e.1) e.2.2) v := by
      rw [relaxEdge_fired hc]
    rw [hd] at hv
    by_cases hve : v = e.2.1
    · subst hve
      rw [updf_self] at hv
      obtain ⟨du, hdu, hsum⟩ := pyAdd_eq_some hv
      obtain ⟨es, hes, hwt⟩ := h e.1 du hdu
      refine ⟨es ++ [(e.1, e.2.1, e.2.2)], ?_, ?_⟩
      · rw [isWalkFrom_append]
        exact ⟨e.1, hes, isWalkFrom_single.mpr ⟨rfl, he, rfl⟩⟩
      · rw [walkWeight_append, walkWeight_cons, walkWeight_nil, hwt, add_zero]
        exact hsum
    · rw [updf_ne _ _ _ hve] at hv
      exact h v d hv
  · rw [relaxEdge_not_fired (Bool.not_eq_true _ ▸ hc)] at hv
    exact h v d hv

theorem foldl_distSound {g : DiGraph α} {s : α} (l : List (α × α × ℚ))
    (hsub : ∀ e ∈ l, e ∈ g.edges) (st : BFState α) (h : DistSound g s st) :
    DistSound g s (l.foldl relaxEdge st) := by
  induction l generalizing st with
  | nil => exact h
  | cons e l ih =>
    exact ih (fun f hf => hsub f (List.mem_cons_of_mem _ hf)) _
      (relaxEdge_distSound (hsub e (List.mem_cons_self _ _)) h)

theorem relaxPass_distSound {g : DiGraph α} {s : α} (st : BFState α)
    (h : DistSound g s st) : DistSound g s (relaxPass g st) :=
  foldl_distSound _ (fun _ hf => hf) st h

theorem bfRelaxed_distSound (g : DiGraph α) (s : α) :
    DistSound g s (bfRelaxed g s) := by
  unfold bfRelaxed
  generalize g.nodes.length - 1 = n
  induction n with
  | zero => exact distSound_init g s
  | succ n ih =>
    rw [Function.iterate_succ_apply']
    exact relaxPass_distSound _ ih

/-! ## Per-pass upper bounds (after pass k, distances are bounded by
short-walk weights) -/

theorem relaxEdge_self_bound (st : BFState α) (e : α × α × ℚ) :
    distLE ((relaxEdge st e).dist e.2.1) (pyAdd (st.dist e.1) e.2.2) := by
  by_cases hc : canRelax st e = true
  · rw [relaxEdge_fired hc]
    show distLE (updf st.dist e.2.1 (pyAdd (st.dist e.1) e.2.2) e.2.1) _
    rw [updf_self]
    exact distLE_refl _
  · rw [relaxEdge_not_fired (Bool.not_eq_true _ ▸ hc)]
    exact (pyLt_false_iff_distLE _ _).mp (Bool.not_eq_true _ ▸ hc)

theorem foldl_relax_edge_bound (l : List (α × α × ℚ)) (st : BFState α)
    (e : α × α × ℚ) (he : e ∈ l) :
    distLE ((l.foldl relaxEdge st).dist e.2.1) (pyAdd (st.dist e.1) e.2.2) := by
  induction l generalizing st with
  | nil => cases he
  | cons f l ih =>
    rcases List.mem_cons.mp he with rfl | h1
    · exact distLE_trans (foldl_relax_dist_le l (relaxEdge st e) e.2.1)
        (relaxEdge_self_bound st e)
    · exact distLE_trans (ih (relaxEdge st f) h1)
        (pyAdd_mono e.2.2 (relaxEdge_dist_le st f e.1))

theorem relaxPass_edge_bound {g : DiGraph α} (st : BFState α) {e : α × α × ℚ}
    (he : e ∈ g.edges) :
    distLE ((relaxPass g st).dist e.2.1) (pyAdd (st.dist e.1) e.2.2) :=
  foldl_relax_edge_bound _ st e he

theorem iterate_walk_bound (g : DiGraph α) (s : α) (k : Nat)
    (es : List (α × α × ℚ)) (v : α) (hw : isWalkFrom g s es v = true)
    (hlen : es.length ≤ k) :
    distLE (((relaxPass g)^[k] (bfInit s)).dist v) (some (walkWeight es)) := by
  induction k generalizing es v with
  | zero =>
    rw [Nat.le_zero, List.length_eq_zero] at hlen
    subst hlen
    have hsv : s = v := isWalkFrom_nil.mp hw
    rw [← hsv]
    show distLE ((bfInit s).dist s) (some (walkWeight []))
    rw [bfInit_dist_self, walkWeight_nil]
    exact distLE_refl _
  | succ k ih =>
    rcases List.eq_nil_or_concat es with rfl | ⟨es1, e, rfl⟩
    · have hsv : s = v := isWalkFrom_nil.mp hw
      rw [← hsv, walkWeight_nil]
      refine distLE_trans (iterate_relaxPass_dist_le g (k + 1) (bfInit s) s) ?_
      rw [bfInit_dist_self]
      exact distLE_refl _
    · rw [List.concat_eq_append] at hw hlen ⊢
      obtain ⟨c, hc, hsingle⟩ := isWalkFrom_append.mp hw
      obtain ⟨hc1, hc2, hc3⟩ := isWalkFrom_single.mp hsingle
      have hlen1 : es1.length ≤ k := by
        rw [List.length_append, List.length_singleton] at hlen
        omega
      have hbound := ih es1 c hc hlen1
      rw [Function.iterate_succ_apply']
      have hstep : distLE (((relaxPass g) (((relaxPass g)^[k]) (bfInit s))).dist e.2.1)
          (pyAdd ((((relaxPass g)^[k]) (bfInit s)).dist e.1) e.2.2) :=
        relaxPass_edge_bound _ hc2
      rw [← hc3]
      refine distLE_trans hstep ?_
      rw [hc1] at hbound
      refine distLE_trans (pyAdd_mono e.2.2 hbound) ?_
      show distLE (some (walkWeight es1 + e.2.2)) (some (walkWeight (es1 ++ [e])))
      rw [walkWeight_append, walkWeight_cons, walkWeight_nil, add_zero]
      exact distLE_refl _

theorem bfRelaxed_walk_bound (g : DiGraph α) (s : α)
    {es : List (α × α × ℚ)} {v : α} (hw : isWalkFrom g s es v = true)
    (hlen : es.length ≤ g.nodes.length - 1) :
    distLE ((bfRelaxed g s).dist v) (some (walkWeight es)) :=
  iterate_walk_bound g s _ es v hw hlen

/-! ## Walk surgery: splitting at a node and extracting closed subwalks -/

theorem walk_split_first {g : DiGraph α} {n : α} :
    ∀ {es : List (α × α × ℚ)} {a b : α}, isWalkFrom g a es b = true →
      n ∈ es.map (fun e => e.1) →
      ∃ es1 es2, es = es1 ++ es2 ∧ isWalkFrom g a es1 n = true ∧
        isWalkFrom g n es2 b = true ∧ es2 ≠ [] ∧
        n ∉ es1.map (fun e => e.1) := by
  intro es
  induction es with
  | nil => intro a b _ hmem; cases hmem
  | cons e es ih =>
    intro a b hw hmem
    obtain ⟨h1, h2, h3⟩ := isWalkFrom_cons.mp hw
    by_cases hn : e.1 = n
    · refine ⟨[], e :: es, rfl, isWalkFrom_nil.mpr (h1.trans hn), ?_, by simp, by simp⟩
      exact isWalkFrom_cons.mpr ⟨hn.symm, h2, h3⟩
    · have hmem2 : n ∈ es.map (fun e => e.1) := by
        rw [List.map_cons] at hmem
        rcases List.mem_cons.mp hmem with h4 | h4
        · exact absurd h4.symm hn
        · exact h4
      obtain ⟨es1, es2, heq, hw1, hw2, hne, hnot⟩ := ih h3 hmem2
      refine ⟨e :: es1, es2, by rw [heq, List.cons_append],
        isWalkFrom_cons.mpr ⟨h1, h2, hw1⟩, hw2, hne, ?_⟩
      intro hc
      rw [List.map_cons] at hc
      rcases List.mem_cons.mp hc with h4 | h4
      · exact hn h4.symm
      · exact hnot h4

theorem walk_extract_closed {g : DiGraph α} {a b : α} {es : List (α × α × ℚ)}
    (hw : isWalkFrom g a es b = true)
    (hdup : ¬(es.map (fun e => e.1)).Nodup) :
    ∃ n es1 es2 es3, es = es1 ++ es2 ++ es3 ∧ isWalkFrom g a es1 n = true ∧
      isWalkFrom g n es2 n = true ∧ isWalkFrom g n es3 b = true ∧ es2 ≠ [] ∧
      es3 ≠ [] := by
  have hex : ∃ n, 1 < (es.map (fun e => e.1)).count n := by
    by_contra hc
    push_neg at hc
    exact hdup (List.nodup_iff_count_le_one.mpr hc)
  obtain ⟨n, hcount⟩ := hex
  have hmem : n ∈ es.map (fun e => e.1) := List.count_pos_iff.mp (by omega)
  obtain ⟨es1, es2, heq, hw1, hw2, hne, hnot⟩ := walk_split_first hw hmem
  subst heq
  cases es2 with
  | nil => exact absurd rfl hne
  | cons f rest =>
    obtain ⟨hf1, hf2, hf3⟩ := isWalkFrom_cons.mp hw2
    have hcount2 : n ∈ rest.map (fun e => e.1) := by
      rw [List.map_append, List.count_append] at hcount
      rw [List.count_eq_zero_of_not_mem hnot] at hcount
      rw [List.map_cons, ← hf1, List.count_cons_self] at hcount
      exact List.count_pos_iff.mp (by omega)
    obtain ⟨r1, r2, heq2, hwr1, hwr2, hner2, -⟩ := walk_split_first hf3 hcount2
    refine ⟨n, es1, f :: r1, r2, ?_, hw1,
      isWalkFrom_cons.mpr ⟨hf1, hf2, hwr1⟩, hwr2, by simp, hner2⟩
    rw [heq2]
    simp

theorem walk_sources_mem_nodes {g : DiGraph α} (hwf : AdjWF g.adj) :
    ∀ {es : List (α × α × ℚ)} {a b : α}, isWalkFrom g a es b = true →
      ∀ x ∈ es.map (fun e => e.1), x ∈ g.nodes := by
  intro es
  induction es with
  | nil => intro a b _ x hx; cases hx
  | cons e es ih =>
    intro a b hw x hx
    obtain ⟨-, h2, h3⟩ := isWalkFrom_cons.mp hw
    rw [List.map_cons] at hx
    rcases List.mem_cons.mp hx with h4 | h4
    · rw [h4]
      exact (edge_endpoints_mem hwf (show (e.1, e.2.1, e.2.2) ∈ g.edges from h2)).1
    · exact ih h3 x h4

/-- Any walk can be shortened to one of at most `|V| - 1` edges with the
same endpoints (weights disregarded). -/
theorem walk_shorten_len {g : DiGraph α} (hwf : AdjWF g.adj) :
    ∀ (fuel : Nat) (es : List (α × α × ℚ)) (s v : α), es.length ≤ fuel →
      isWalkFrom g s es v = true →
      ∃ es2, isWalkFrom g s es2 v = true ∧ es2.length ≤ g.nodes.length - 1 := by
  intro fuel
  induction fuel with
  | zero =>
    intro es s v hlen hw
    rw [Nat.le_zero, List.length_eq_zero] at hlen
    subst hlen
    exact ⟨[], hw, by simp⟩
  | succ fuel ih =>
    intro es s v hlen hw
    by_cases hdup : (es.map (fun e => e.1)).Nodup
    · by_cases hshort : es.length ≤ g.nodes.length - 1
      · exact ⟨es, hw, hshort⟩
      · -- es has nodup sources, all nodes, and length ≥ |V|; hence exactly |V|
        have hsub : ∀ x ∈ es.map (fun e => e.1), x ∈ g.nodes :=
          walk_sources_mem_nodes hwf hw
        have hlelen : es.length ≤ g.nodes.length := by
          have h1 : (es.map (fun e => e.1)).toFinset.card =
              (es.map (fun e => e.1)).length := List.toFinset_card_of_nodup hdup
          have h2 : (es.map (fun e => e.1)).toFinset ⊆ g.nodes.toFinset := by
            intro x hx
            exact List.mem_toFinset.mpr (hsub x (List.mem_toFinset.mp hx))
          have h3 := Finset.card_le_card h2
          have h4 := List.toFinset_card_le (l := g.nodes)
          rw [h1] at h3
          rw [List.length_map] at h3
          omega
        have hesne : es ≠ [] := by
          intro hc
          subst hc
          simp at hshort
        have hvnodes : v ∈ g.nodes := walk_last_mem_nodes hwf hesne hw
        -- the |V| distinct sources exhaust the nodes, so v is one of them
        have hfeq : (es.map (fun e => e.1)).toFinset = g.nodes.toFinset := by
          apply Finset.eq_of_subset_of_card_le
          · intro x hx
            exact List.mem_toFinset.mpr (hsub x (List.mem_toFinset.mp hx))
          · have h1 : (es.map (fun e => e.1)).toFinset.card =
                (es.map (fun e => e.1)).length := List.toFinset_card_of_nodup hdup
            have h4 := List.toFinset_card_le (l := g.nodes)
            rw [h1, List.length_map]
            omega
        have hvsrc : v ∈ es.map (fun e => e.1) := by
          have := List.mem_toFinset.mpr hvnodes
          rw [← hfeq] at this
          exact List.mem_toFinset.mp this
        obtain ⟨es1, es2, heq, hw1, -, hne, -⟩ := walk_split_first hw hvsrc
        refine ih es1 s v ?_ hw1
        have : es2.length ≥ 1 := by
          cases es2 with
          | nil => exact absurd rfl hne
          | cons f r => simp
        have hle : es.length ≤ fuel + 1 := hlen
        rw [heq, List.length_append] at hle
        omega
    · obtain ⟨n, es1, es2, es3, heq, hw1, -, hw3, hne, -⟩ := walk_extract_closed hw hdup
      have hw13 : isWalkFrom g s (es1 ++ es3) v = true :=
        isWalkFrom_append.mpr ⟨n, hw1, hw3⟩
      refine ih (es1 ++ es3) s v ?_ hw13
      have : es2.length ≥ 1 := by
        cases es2 with
        | nil => exact absurd rfl hne
        | cons f r => simp
      have hle : es.length ≤ fuel + 1 := hlen
      rw [heq] at hle
      rw [List.length_append, List.length_append] at hle
      rw [List.length_append]
      omega

/-- Every node reachable from the source has a finite distance after the
relaxation passes. -/
theorem bfRelaxed_finite_of_reachable {g : DiGraph α} (hwf : AdjWF g.adj)
    {s v : α} (hr : Reachable g s v) :
    ∃ d, (bfRelaxed g s).dist v = some d := by
  obtain ⟨es, hes⟩ := hr
  obtain ⟨es2, hw2, hlen2⟩ := walk_shorten_len hwf es.length es s v le_rfl hes
  have := bfRelaxed_walk_bound g s hw2 hlen2
  exact (distLE_some_right this).imp (fun d hd => hd.1)

/-! ## Decomposing a negative closed walk into a negative simple cycle -/

/-- A closed walk of negative weight contains a simple cycle of negative
weight, at a node reachable from the closed walk's base point. -/
theorem negClosed_to_negCycle {g : DiGraph α} :
    ∀ (fuel : Nat) (a : α) (es : List (α × α × ℚ)), es.length ≤ fuel →
      isWalkFrom g a es a = true → es ≠ [] → walkWeight es < 0 →
      ∃ pfx b es2, isWalkFrom g a pfx b = true ∧ IsCycleAt g b es2 ∧
        walkWeight es2 < 0 := by
  intro fuel
  induction fuel with
  | zero =>
    intro a es hlen hw hne hneg
    rw [Nat.le_zero, List.length_eq_zero] at hlen
    exact absurd hlen hne
  | succ fuel ih =>
    intro a es hlen hw hne hneg
    by_cases hdup : (es.map (fun e => e.1)).Nodup
    · exact ⟨[], a, es, isWalkFrom_nil.mpr rfl, ⟨hne, hw, hdup⟩, hneg⟩
    · obtain ⟨n, es1, es2, es3, heq, hw1, hw2, hw3, hne2, hne3⟩ :=
        walk_extract_closed hw hdup
      have hlen2 : 1 ≤ es2.length := by
        cases es2 with
        | nil => exact absurd rfl hne2
        | cons f r => simp
      have hlentot : es1.length + es2.length + es3.length ≤ fuel + 1 := by
        rw [heq, List.length_append, List.length_append] at hlen
        omega
      have hwtot : walkWeight es1 + walkWeight es2 + walkWeight es3 =
          walkWeight es := by
        rw [heq, walkWeight_append, walkWeight_append]
      have hlen3 : 1 ≤ es3.length := by
        cases es3 with
        | nil => exact absurd rfl hne3
        | cons f r => simp
      by_cases hw2neg : walkWeight es2 < 0
      · obtain ⟨pfx, b, es4, hpfx, hcyc, hneg4⟩ :=
          ih n es2 (by omega) hw2 hne2 hw2neg
        exact ⟨es1 ++ pfx, b, es4, isWalkFrom_append.mpr ⟨n, hw1, hpfx⟩,
          hcyc, hneg4⟩
      · have houter : isWalkFrom g a (es1 ++ es3) a = true :=
          isWalkFrom_append.mpr ⟨n, hw1, hw3⟩
        have h0 : 0 ≤ walkWeight es2 := not_lt.mp hw2neg
        have hwouter : walkWeight (es1 ++ es3) < 0 := by
          rw [walkWeight_append]
          linarith
        have honempty : es1 ++ es3 ≠ [] := by
          intro hc
          rw [List.append_eq_nil] at hc
          have hwes : walkWeight es = walkWeight es2 := by
            rw [← hwtot, hc.1, hc.2, walkWeight_nil]
            ring
          rw [hwes] at hneg
          linarith
        have hlenouter : (es1 ++ es3).length ≤ fuel := by
          rw [List.length_append]
          omega
        exact ih a (es1 ++ es3) hlenouter houter honempty hwouter

/-- When no negative cycle is reachable from `s`, every non-empty closed
walk based at a node reachable from `s` has non-negative weight. -/
theorem closed_nonneg_of_noNegCycle {g : DiGraph α} {s : α}
    (hnc : ¬ NegCycleReachable g s) {p : List (α × α × ℚ)} {a : α}
    {es : List (α × α × ℚ)} (hp : isWalkFrom g s p a = true)
    (hw : isWalkFrom g a es a = true) (hne : es ≠ []) :
    0 ≤ walkWeight es := by
  by_contra hneg
  push_neg at hneg
  obtain ⟨pfx, b, es2, hpfx, hcyc, hneg2⟩ :=
    negClosed_to_negCycle es.length a es le_rfl hw hne hneg
  exact hnc ⟨p ++ pfx, b, es2, isWalkFrom_append.mpr ⟨a, hp, hpfx⟩, hcyc, hneg2⟩

/-- With no reachable negative cycle, any walk from `s` can be shortened to
at most `|V| - 1` edges without increasing its weight. -/
theorem walk_shorten_wt {g : DiGraph α} (hwf : AdjWF g.adj) {s : α}
    (hnc : ¬ NegCycleReachable g s) :
    ∀ (fuel : Nat) (es : List (α × α × ℚ)) (v : α), es.length ≤ fuel →
      isWalkFrom g s es v = true →
      ∃ es2, isWalkFrom g s es2 v = true ∧ es2.length ≤ g.nodes.length - 1 ∧
        walkWeight es2 ≤ walkWeight es := by
  intro fuel
  induction fuel with
  | zero =>
    intro es v hlen hw
    rw [Nat.le_zero, List.length_eq_zero] at hlen
    subst hlen
    exact ⟨[], hw, by simp, le_rfl⟩
  | succ fuel ih =>
    intro es v hlen hw
    by_cases hdup : (es.map (fun e => e.1)).Nodup
    · by_cases hshort : es.length ≤ g.nodes.length - 1
      · exact ⟨es, hw, hshort, le_rfl⟩
      · have hsub : ∀ x ∈ es.map (fun e => e.1), x ∈ g.nodes :=
          walk_sources_mem_nodes hwf hw
        have hesne : es ≠ [] := by
          intro hc
          subst hc
          simp at hshort
        have hvnodes : v ∈ g.nodes := walk_last_mem_nodes hwf hesne hw
        have hfeq : (es.map (fun e => e.1)).toFinset = g.nodes.toFinset := by
          apply Finset.eq_of_subset_of_card_le
          · intro x hx
            exact List.mem_toFinset.mpr (hsub x (List.mem_toFinset.mp hx))
          · have h1 : (es.map (fun e => e.1)).toFinset.card =
                (es.map (fun e => e.1)).length := List.toFinset_card_of_nodup hdup
            have h4 := List.toFinset_card_le (l := g.nodes)
            rw [h1, List.length_map]
            have hlelen : es.length ≤ g.nodes.length := by
              have h2 : (es.map (fun e => e.1)).toFinset ⊆ g.nodes.toFinset := by
                intro x hx
                exact List.mem_toFinset.mpr (hsub x (List.mem_toFinset.mp hx))
              have h3 := Finset.card_le_card h2
              rw [h1, List.length_map] at h3
              omega
            omega
        have hvsrc : v ∈ es.map (fun e => e.1) := by
          have hv2 := List.mem_toFinset.mpr hvnodes
          rw [← hfeq] at hv2
          exact List.mem_toFinset.mp hv2
        obtain ⟨es1, es2, heq, hw1, hw2, hne, -⟩ := walk_split_first hw hvsrc
        have hcl : 0 ≤ walkWeight es2 := closed_nonneg_of_noNegCycle hnc hw1 hw2 hne
        have hlen2 : 1 ≤ es2.length := by
          cases es2 with
          | nil => exact absurd rfl hne
          | cons f r => simp
        obtain ⟨es3, hw3, hlen3, hwt3⟩ := ih es1 v (by
          have hle : es.length ≤ fuel + 1 := hlen
          rw [heq, List.length_append] at hle
          omega) hw1
        refine ⟨es3, hw3, hlen3, ?_⟩
        have hwt : walkWeight es = walkWeight es1 + walkWeight es2 := by
          rw [heq, walkWeight_append]
        linarith
    · obtain ⟨n, es1, es2, es3, heq, hw1, hw2, hw3, hne2, -⟩ :=
        walk_extract_closed hw hdup
      have hcl : 0 ≤ walkWeight es2 := closed_nonneg_of_noNegCycle hnc hw1 hw2 hne2
      have hw13 : isWalkFrom g s (es1 ++ es3) v = true :=
        isWalkFrom_append.mpr ⟨n, hw1, hw3⟩
      have hlen2 : 1 ≤ es2.length := by
        cases es2 with
        | nil => exact absurd rfl hne2
        | cons f r => simp
      obtain ⟨es4, hw4, hlen4, hwt4⟩ := ih (es1 ++ es3) v (by
        have hle : es.length ≤ fuel + 1 := hlen
        rw [heq, List.length_append, List.length_append] at hle
        rw [List.length_append]
        omega) hw13
      refine ⟨es4, hw4, hlen4, ?_⟩
      have hwt : walkWeight es = walkWeight es1 + walkWeight es2 + walkWeight es3 := by
        rw [heq, walkWeight_append, walkWeight_append]
      rw [walkWeight_append] at hwt4
      linarith

/-- After the `|V| - 1` relaxation passes on a graph with no reachable
negative cycle, no edge can still be relaxed. -/
theorem noRelax_of_noNegCycle {g : DiGraph α} (hwf : AdjWF g.adj) {s : α}
    (hnc : ¬ NegCycleReachable g s) :
    ∀ e ∈ g.edges, canRelax (bfRelaxed g s) e = false := by
  intro e he
  by_contra hcne
  rw [Bool.not_eq_false] at hcne
  obtain ⟨x, hx⟩ := pyLt_true_some_left hcne
  obtain ⟨du, hdu, hsum⟩ := pyAdd_eq_some hx
  obtain ⟨es, hes, hwt⟩ := bfRelaxed_distSound g s e.1 du hdu
  have hwalkv : isWalkFrom g s (es ++ [(e.1, e.2.1, e.2.2)]) e.2.1 = true :=
    isWalkFrom_append.mpr ⟨e.1, hes, isWalkFrom_single.mpr ⟨rfl, he, rfl⟩⟩
  obtain ⟨es2, hw2, hlen2, hwt2⟩ :=
    walk_shorten_wt hwf hnc _ _ _ le_rfl hwalkv
  have hub := bfRelaxed_walk_bound g s hw2 hlen2
  obtain ⟨dv, hdv, hdvle⟩ := distLE_some_right hub
  have hclt : pyLt (some x) (some dv) = true := by
    have hcr : canRelax (bfRelaxed g s) e =
        pyLt (pyAdd ((bfRelaxed g s).dist e.1) e.2.2)
          ((bfRelaxed g s).dist e.2.1) := rfl
    rw [hcr, hx, hdv] at hcne
    exact hcne
  have hxdv : x < dv := by simpa [pyLt] using hclt
  have hwtappend : walkWeight (es ++ [(e.1, e.2.1, e.2.2)]) = du + e.2.2 := by
    rw [walkWeight_append, walkWeight_cons, walkWeight_nil, hwt, add_zero]
  rw [hwtappend] at hwt2
  linarith

/-- With no reachable negative cycle, the detection pass finds nothing. -/
theorem detect_none_of_noNegCycle {g : DiGraph α} (hwf : AdjWF g.adj) {s : α}
    (hnc : ¬ NegCycleReachable g s) : detect g (bfRelaxed g s) = none := by
  unfold detect
  rw [List.find?_eq_none.mpr]
  · rfl
  · intro e he
    rw [noRelax_of_noNegCycle hwf hnc e he]
    simp

/-- With no reachable negative cycle, the source keeps distance `0`. -/
theorem bfRelaxed_dist_source {g : DiGraph α} {s : α}
    (hnc : ¬ NegCycleReachable g s) : (bfRelaxed g s).dist s = some 0 := by
  have hle := bfRelaxed_dist_le_init g s s
  rw [bfInit_dist_self] at hle
  obtain ⟨ds, hds, hdsle⟩ := distLE_some_right hle
  obtain ⟨es, hes, hwt⟩ := bfRelaxed_distSound g s s ds hds
  cases es with
  | nil =>
    rw [hds]
    rw [walkWeight_nil] at hwt
    rw [← hwt]
  | cons f fs =>
    have h0 : 0 ≤ walkWeight (f :: fs) :=
      closed_nonneg_of_noNegCycle hnc (isWalkFrom_nil.mpr rfl) hes (by simp)
    rw [hwt] at h0
    rw [hds]
    have hzero : ds = 0 := le_antisymm hdsle h0
    rw [hzero]

/-! ## Preservation of the predecessor invariants -/

theorem pyLt_some_right_cases {x : ℚ} {b : Option ℚ} (h : pyLt (some x) b = true) :
    b = none ∨ ∃ y, b = some y ∧ x < y := by
  cases b with
  | none => exact Or.inl rfl
  | some y => exact Or.inr ⟨y, rfl, by simpa [pyLt] using h⟩

theorem pyLt_trans_distLE {a b c : Option ℚ} (h1 : pyLt a b = true)
    (h2 : distLE b c) : pyLt a c = true := by
  cases a <;> cases b <;> cases c <;> simp_all [pyLt, distLE]
  exact lt_of_lt_of_le h1 h2

theorem relaxEdge_predOK {g : DiGraph α} (hwf : AdjWF g.adj) {st : BFState α}
    {e : α × α × ℚ} (he : e ∈ g.edges) (h : PredOK g st) :
    PredOK g (relaxEdge st e) := by
  by_cases hc : canRelax st e = true
  · have hdist : (relaxEdge st e).dist =
        updf st.dist e.2.1 (pyAdd (st.dist e.1) e.2.2) := by
      rw [relaxEdge_fired hc]
    have hpred : (relaxEdge st e).pred = updf st.pred e.2.1 (some e.1) := by
      rw [relaxEdge_fired hc]
    obtain ⟨x, hx⟩ := pyLt_true_some_left hc
    obtain ⟨du, hdu, hsum⟩ := pyAdd_eq_some hx
    have hc2 : pyLt (some x) (st.dist e.2.1) = true := by
      have hcr : canRelax st e =
          pyLt (pyAdd (st.dist e.1) e.2.2) (st.dist e.2.1) := rfl
      rw [hcr, hx] at hc
      exact hc
    intro z u hz
    rw [hpred] at hz
    rw [hdist]
    by_cases hzv : z = e.2.1
    · rw [hzv, updf_self] at hz
      have huu : e.1 = u := by
        injection hz
      subst huu
      have hedge : edgeWeight g e.1 e.2.1 = some e.2.2 :=
        edgeWeight_of_mem hwf (show (e.1, e.2.1, e.2.2) ∈ g.edges from he)
      rw [hzv]
      by_cases hself : e.1 = e.2.1
      · have hdzv : st.dist e.2.1 = some du := by rw [← hself]; exact hdu
        have hxdu : x < du := by
          rw [hdzv] at hc2
          simpa [pyLt] using hc2
        refine ⟨e.2.2, x, x, hedge, ?_, ?_, ?_⟩
        · rw [updf_self, hx]
        · rw [hself, updf_self, hdzv]
          simp [pyAdd, hsum]
        · linarith
      · refine ⟨e.2.2, x, du, hedge, ?_, ?_, ?_⟩
        · rw [updf_self, hx]
        · rw [updf_ne _ _ _ hself]
          exact hdu
        · exact le_of_eq hsum
    · rw [updf_ne _ _ _ hzv] at hz
      obtain ⟨w, dz, du2, hwgt, hdz, hdu2, hle⟩ := h z u hz
      by_cases huv : u = e.2.1
      · have hdu2v : st.dist e.2.1 = some du2 := by rw [← huv]; exact hdu2
        have hxdu2 : x < du2 := by
          rw [hdu2v] at hc2
          simpa [pyLt] using hc2
        refine ⟨w, dz, x, hwgt, ?_, ?_, ?_⟩
        · rw [updf_ne _ _ _ hzv]
          exact hdz
        · rw [huv, updf_self, hx]
        · linarith
      · refine ⟨w, dz, du2, hwgt, ?_, ?_, hle⟩
        · rw [updf_ne _ _ _ hzv]
          exact hdz
        · rw [updf_ne _ _ _ huv]
          exact hdu2
  · rw [relaxEdge_not_fired (Bool.not_eq_true _ ▸ hc)]
    exact h

theorem relaxEdge_predInNodes {g : DiGraph α} (hwf : AdjWF g.adj)
    {st : BFState α} {e : α × α × ℚ} (he : e ∈ g.edges)
    (h : PredInNodes g st) : PredInNodes g (relaxEdge st e) := by
  by_cases hc : canRelax st e = true
  · intro z u hz
    have hpred : (relaxEdge st e).pred = updf st.pred e.2.1 (some e.1) := by
      rw [relaxEdge_fired hc]
    rw [hpred] at hz
    by_cases hzv : z = e.2.1
    · rw [hzv, updf_self] at hz
      have huu : e.1 = u := by injection hz
      rw [← huu]
      exact (edge_endpoints_mem hwf
        (show (e.1, e.2.1, e.2.2) ∈ g.edges from he)).1
    · rw [updf_ne _ _ _ hzv] at hz
      exact h z u hz
  · rw [relaxEdge_not_fired (Bool.not_eq_true _ ▸ hc)]
    exact h

theorem relaxEdge_predDrop {s : α} {st : BFState α} {e : α × α × ℚ}
    (hmono : ∀ x, distLE (st.dist x) ((bfInit s).dist x))
    (h : PredDrop s st) : PredDrop s (relaxEdge st e) := by
  by_cases hc : canRelax st e = true
  · intro z hz
    have hdist : (relaxEdge st e).dist =
        updf st.dist e.2.1 (pyAdd (st.dist e.1) e.2.2) := by
      rw [relaxEdge_fired hc]
    have hpred : (relaxEdge st e).pred = updf st.pred e.2.1 (some e.1) := by
      rw [relaxEdge_fired hc]
    rw [hdist]
    by_cases hzv : z = e.2.1
    · rw [hzv, updf_self]
      exact pyLt_trans_distLE hc (hmono e.2.1)
    · rw [updf_ne _ _ _ hzv]
      rw [hpred, updf_ne _ _ _ hzv] at hz
      exact h z hz
  · rw [relaxEdge_not_fired (Bool.not_eq_true _ ▸ hc)]
    exact h

theorem relaxEdge_invLite {g : DiGraph α} {s : α} {st : BFState α}
    {e : α × α × ℚ} (hwf : AdjWF g.adj) (he : e ∈ g.edges)
    (h : BFInvLite g s st) : BFInvLite g s (relaxEdge st e) :=
  ⟨relaxEdge_predOK hwf he h.1,
   relaxEdge_predDrop h.2.2.2 h.2.1,
   relaxEdge_predInNodes hwf he h.2.2.1,
   fun x => distLE_trans (relaxEdge_dist_le st e x) (h.2.2.2 x)⟩

theorem foldl_invLite {g : DiGraph α} {s : α} (hwf : AdjWF g.adj)
    (l : List (α × α × ℚ)) (hsub : ∀ e ∈ l, e ∈ g.edges) (st : BFState α)
    (h : BFInvLite g s st) : BFInvLite g s (l.foldl relaxEdge st) := by
  induction l generalizing st with
  | nil => exact h
  | cons e l ih =>
    exact ih (fun f hf => hsub f (List.mem_cons_of_mem _ hf)) _
      (relaxEdge_invLite hwf (hsub e (List.mem_cons_self _ _)) h)

theorem bfInit_invLite (g : DiGraph α) (s : α) : BFInvLite g s (bfInit s) := by
  refine ⟨?_, ?_, ?_, fun x => distLE_refl _⟩
  · intro x u hx
    cases hx
  · intro x hx
    exact absurd rfl hx
  · intro x u hx
    cases hx

theorem bfRelaxed_invLite {g : DiGraph α} (hwf : AdjWF g.adj) (s : α) :
    BFInvLite g s (bfRelaxed g s) := by
  unfold bfRelaxed
  generalize g.nodes.length - 1 = n
  induction n with
  | zero => exact bfInit_invLite g s
  | succ n ih =>
    rw [Function.iterate_succ_apply']
    exact foldl_invLite hwf _ (fun _ hf => hf) _ ih

/-! ## Detection fires exactly when a negative cycle is reachable -/

/-- When no edge is relaxable, distances satisfy the triangle inequality
along every walk. -/
theorem telescope_noRelax {g : DiGraph α} {st : BFState α}
    (hnr : ∀ e ∈ g.edges, canRelax st e = false) :
    ∀ (es : List (α × α × ℚ)) (x y : α), isWalkFrom g x es y = true →
      ∀ dx, st.dist x = some dx →
      ∃ dy, st.dist y = some dy ∧ dy ≤ dx + walkWeight es := by
  intro es
  induction es with
  | nil =>
    intro x y hw dx hdx
    rw [← isWalkFrom_nil.mp hw]
    exact ⟨dx, hdx, by rw [walkWeight_nil, add_zero]⟩
  | cons e es ih =>
    intro x y hw dx hdx
    obtain ⟨h1, h2, h3⟩ := isWalkFrom_cons.mp hw
    have hcr : canRelax st e = false := hnr e h2
    have hdx1 : st.dist e.1 = some dx := by rw [← h1]; exact hdx
    have hcr2 : pyLt (some (dx + e.2.2)) (st.dist e.2.1) = false := by
      have hcrdef : canRelax st e =
          pyLt (pyAdd (st.dist e.1) e.2.2) (st.dist e.2.1) := rfl
      rw [hcrdef, hdx1] at hcr
      exact hcr
    have hle : distLE (st.dist e.2.1) (some (dx + e.2.2)) :=
      (pyLt_false_iff_distLE _ _).mp hcr2
    obtain ⟨d1, hd1, hd1le⟩ := distLE_some_right hle
    obtain ⟨dy, hdy, hdyle⟩ := ih e.2.1 y h3 d1 hd1
    refine ⟨dy, hdy, ?_⟩
    rw [walkWeight_cons]
    linarith

theorem negCycle_relaxable {g : DiGraph α} (hwf : AdjWF g.adj) {s : α}
    (h : NegCycleReachable g s) :
    ¬ ∀ e ∈ g.edges, canRelax (bfRelaxed g s) e = false := by
  intro hnr
  obtain ⟨p, a, es, hp, ⟨hne, hcw, -⟩, hneg⟩ := h
  obtain ⟨da, hda⟩ := bfRelaxed_finite_of_reachable hwf ⟨p, hp⟩
  obtain ⟨da2, hda2, hle⟩ := telescope_noRelax hnr es a a hcw da hda
  rw [hda] at hda2
  have heq : da = da2 := by injection hda2
  rw [← heq] at hle
  linarith

theorem detect_some_of_negCycle {g : DiGraph α} (hwf : AdjWF g.adj) {s : α}
    (h : NegCycleReachable g s) :
    ∃ v, detect g (bfRelaxed g s) = some v := by
  cases hdet : detect g (bfRelaxed g s) with
  | some v => exact ⟨v, rfl⟩
  | none =>
    exfalso
    apply negCycle_relaxable hwf h
    intro e he
    unfold detect at hdet
    rw [Option.map_eq_none'] at hdet
    have := List.find?_eq_none.mp hdet e he
    simpa using this

theorem noNegCycle_of_detect_none {g : DiGraph α} (hwf : AdjWF g.adj) {s : α}
    (hd : detect g (bfRelaxed g s) = none) : ¬ NegCycleReachable g s := by
  intro h
  obtain ⟨v, hv⟩ := detect_some_of_negCycle hwf h
  rw [hd] at hv
  cases hv

theorem unreachable_of_dist_none {g : DiGraph α} (hwf : AdjWF g.adj) {s v : α}
    (hd : (bfRelaxed g s).dist v = none) : ¬ Reachable g s v := by
  intro hr
  obtain ⟨dd, hdd⟩ := bfRelaxed_finite_of_reachable hwf hr
  rw [hd] at hdd
  cases hdd

/-- Both return paths of a completed run hand back the relaxation-phase
distance and predecessor maps unchanged. -/
theorem bellman_ford_components {g : DiGraph α} {s : α} {d : α → Option ℚ}
    {p : α → Option α} {c : List (α × α)}
    (h : bellman_ford g s = some (d, p, c)) :
    d = (bfRelaxed g s).dist ∧ p = (bfRelaxed g s).pred := by
  have h2 : (match detect g (bfRelaxed g s) with
      | none => some ((bfRelaxed g s).dist, (bfRelaxed g s).pred, ([] : List (α × α)))
      | some v =>
        match iteratePred (bfRelaxed g s).pred g.nodes.length v with
        | none => none
        | some c0 =>
          Option.map (fun es => ((bfRelaxed g s).dist, (bfRelaxed g s).pred, es))
            (cycleWalk (bfRelaxed g s).pred c0 (g.nodes.length + 1) c0)) =
      some (d, p, c) := h
  cases hdet : detect g (bfRelaxed g s) with
  | none =>
    rw [hdet] at h2
    simp only [Option.some.injEq] at h2
    exact ⟨(congrArg (fun t => t.1) h2).symm, (congrArg (fun t => t.2.1) h2).symm⟩
  | some v =>
    rw [hdet] at h2
    have h3 : (match iteratePred (bfRelaxed g s).pred g.nodes.length v with
        | none => none
        | some c0 =>
          Option.map (fun es => ((bfRelaxed g s).dist, (bfRelaxed g s).pred, es))
            (cycleWalk (bfRelaxed g s).pred c0 (g.nodes.length + 1) c0)) =
        some (d, p, c) := h2
    cases hiter : iteratePred (bfRelaxed g s).pred g.nodes.length v with
    | none => rw [hiter] at h3; cases h3
    | some c0 =>
      rw [hiter] at h3
      rw [Option.map_eq_some'] at h3
      obtain ⟨es, -, heq⟩ := h3
      exact ⟨(congrArg (fun t => t.1) heq).symm, (congrArg (fun t => t.2.1) heq).symm⟩

/-! ## Running from a source that is not a node -/

theorem relaxEdge_unknown_fixed {g : DiGraph α} (hwf : AdjWF g.adj) {s : α}
    (hs : s ∉ g.nodes) {e : α × α × ℚ} (he : e ∈ g.edges) :
    relaxEdge (bfInit s) e = bfInit s := by
  apply relaxEdge_not_fired
  have h1 : e.1 ∈ g.nodes :=
    (edge_endpoints_mem hwf (show (e.1, e.2.1, e.2.2) ∈ g.edges from he)).1
  have h2 : e.1 ≠ s := fun hc => hs (hc ▸ h1)
  have hd : (bfInit s).dist e.1 = none := bfInit_dist_ne h2
  have hcr : canRelax (bfInit s) e =
      pyLt (pyAdd ((bfInit s).dist e.1) e.2.2) ((bfInit s).dist e.2.1) := rfl
  rw [hcr, hd]
  rfl

theorem bfRelaxed_unknown_source {g : DiGraph α} (hwf : AdjWF g.adj) {s : α}
    (hs : s ∉ g.nodes) : bfRelaxed g s = bfInit s := by
  unfold bfRelaxed
  have hpass : relaxPass g (bfInit s) = bfInit s := by
    unfold relaxPass
    have hgen : ∀ l : List (α × α × ℚ), (∀ e ∈ l, e ∈ g.edges) →
        l.foldl relaxEdge (bfInit s) = bfInit s := by
      intro l
      induction l with
      | nil => intro _; rfl
      | cons e l ih =>
        intro hsub
        rw [List.foldl_cons,
          relaxEdge_unknown_fixed hwf hs (hsub e (List.mem_cons_self _ _))]
        exact ih (fun f hf => hsub f (List.mem_cons_of_mem _ hf))
    exact hgen g.edges (fun _ hf => hf)
  exact Function.iterate_fixed hpass _

theorem detect_unknown_source {g : DiGraph α} (hwf : AdjWF g.adj) {s : α}
    (hs : s ∉ g.nodes) : detect g (bfRelaxed g s) = none := by
  rw [bfRelaxed_unknown_source hwf hs]
  unfold detect
  rw [List.find?_eq_none.mpr]
  · rfl
  · intro e he
    have hne : canRelax (bfInit s) e = false := by
      have h1 : e.1 ∈ g.nodes :=
        (edge_endpoints_mem hwf (show (e.1, e.2.1, e.2.2) ∈ g.edges from he)).1
      have h2 : e.1 ≠ s := fun hc => hs (hc ▸ h1)
      have hd : (bfInit s).dist e.1 = none := bfInit_dist_ne h2
      have hcr : canRelax (bfInit s) e =
          pyLt (pyAdd ((bfInit s).dist e.1) e.2.2) ((bfInit s).dist e.2.1) := rfl
      rw [hcr, hd]
      rfl
    simp [hne]

/-- Unreachable nodes keep infinite distance and no predecessor. -/
theorem bfRelaxed_unreachable {g : DiGraph α} (hwf : AdjWF g.adj) {s v : α}
    (hnr : ¬ Reachable g s v) :
    (bfRelaxed g s).dist v = none ∧ (bfRelaxed g s).pred v = none := by
  constructor
  · cases hd : (bfRelaxed g s).dist v with
    | none => rfl
    | some d =>
      obtain ⟨es, hes, -⟩ := bfRelaxed_distSound g s v d hd
      exact absurd ⟨es, hes⟩ hnr
  · cases hp : (bfRelaxed g s).pred v with
    | none => rfl
    | some u =>
      obtain ⟨w, dx, du, -, hdx, -, -⟩ := (bfRelaxed_invLite hwf s).1 v u hp
      obtain ⟨es, hes, -⟩ := bfRelaxed_distSound g s v dx hdx
      exact absurd ⟨es, hes⟩ hnr

theorem bellman_ford_of_detect_none {g : DiGraph α} {s : α}
    (hdet : detect g (bfRelaxed g s) = none) :
    bellman_ford g s =
      some ((bfRelaxed g s).dist, (bfRelaxed g s).pred, []) := by
  show (match detect g (bfRelaxed g s) with
    | none => some ((bfRelaxed g s).dist, (bfRelaxed g s).pred, ([] : List (α × α)))
    | some v =>
      match iteratePred (bfRelaxed g s).pred g.nodes.length v with
      | none => none
      | some c0 =>
        Option.map (fun es => ((bfRelaxed g s).dist, (bfRelaxed g s).pred, es))
          (cycleWalk (bfRelaxed g s).pred c0 (g.nodes.length + 1) c0)) = _
  rw [hdet]

/-! ## Claim C1 -/

/-- C1: on any graph in which no negative-weight cycle is reachable from the
source, `run(source)` returns the Acyclic outcome (empty cycle-edge list),
the returned distance map is the relaxation-phase map with
`distance[source] == 0`, and that map satisfies
`distance[v] <= distance[u] + w` for every edge `(u, v, w)`. -/
theorem claim_C1 (g : DiGraph α) (s : α) (hwf : AdjWF g.adj)
    (hnc : ¬ NegCycleReachable g s) :
    bfCycle g s = some [] ∧
    bfDistAt g s s = some (some 0) ∧
    (∀ v, bfDistAt g s v = some ((bfRelaxed g s).dist v)) ∧
    ∀ e ∈ g.edges,
      distLE ((bfRelaxed g s).dist e.2.1)
        (pyAdd ((bfRelaxed g s).dist e.1) e.2.2) := by
  have hdet := detect_none_of_noNegCycle hwf hnc
  have hbf := bellman_ford_of_detect_none hdet
  refine ⟨?_, ?_, ?_, ?_⟩
  · unfold bfCycle
    rw [hbf]
    rfl
  · unfold bfDistAt
    rw [hbf]
    show some ((bfRelaxed g s).dist s) = some (some 0)
    rw [bfRelaxed_dist_source hnc]
  · intro v
    unfold bfDistAt
    rw [hbf]
    rfl
  · intro e he
    have hfalse := noRelax_of_noNegCycle hwf hnc e he
    have hcr : canRelax (bfRelaxed g s) e =
        pyLt (pyAdd ((bfRelaxed g s).dist e.1) e.2.2)
          ((bfRelaxed g s).dist e.2.1) := rfl
    rw [hcr] at hfalse
    exact (pyLt_false_iff_distLE _ _).mp hfalse

/-- Witness for C1 at the repository's acyclic example graph. -/
theorem claim_C1_witness :
    (¬ NegCycleReachable exAcyclic "U") ∧
    (bfCycle exAcyclic "U" = some [] ∧
     bfDistAt exAcyclic "U" "U" = some (some 0) ∧
     (∀ v, bfDistAt exAcyclic "U" v = some ((bfRelaxed exAcyclic "U").dist v)) ∧
     ∀ e ∈ exAcyclic.edges,
       distLE ((bfRelaxed exAcyclic "U").dist e.2.1)
         (pyAdd ((bfRelaxed exAcyclic "U").dist e.1) e.2.2)) := by
  have hwf : AdjWF exAcyclic.adj := fromEdges_WF _
  have hnc : ¬ NegCycleReachable exAcyclic "U" :=
    noNegCycle_of_detect_none hwf (by decide!)
  exact ⟨hnc, claim_C1 exAcyclic "U" hwf hnc⟩

/-! ## Claim C5 (amended): an unknown source does not raise -/

/-- C5 (amended): when `source` is not a node of the graph, `run(source)`
does not fail; it returns normally with `distance[source] = 0` (the key is
added by the initial assignment), every graph node still at `+inf`, every
predecessor `None`, and an empty cycle list. -/
theorem claim_C5 (g : DiGraph α) (s : α) (hwf : AdjWF g.adj)
    (hs : s ∉ g.nodes) :
    bellman_ford g s = some ((bfInit s).dist, (bfInit s).pred, []) ∧
    (bfInit s).dist s = some 0 ∧
    (∀ v ∈ g.nodes, (bfInit s).dist v = none) ∧
    ∀ v, (bfInit s).pred v = none := by
  have hrel := bfRelaxed_unknown_source hwf hs
  have hdet := detect_unknown_source hwf hs
  refine ⟨?_, bfInit_dist_self s, ?_, fun v => rfl⟩
  · have hbf := bellman_ford_of_detect_none hdet
    rw [hrel] at hbf
    exact hbf
  · intro v hv
    exact bfInit_dist_ne (fun hc => hs (hc ▸ hv))

/-- Counterexample to C5 as stated: on a concrete graph and an absent
source, `run` raises nothing — it completes and returns the Acyclic shape
with `distance["Z"] == 0`. -/
theorem claim_C5_counterexample :
    ("Z" ∉ (fromEdges [("A", "B", (1 : ℚ))]).nodes) ∧
    bfCycle (fromEdges [("A", "B", (1 : ℚ))]) "Z" = some [] ∧
    bfDistAt (fromEdges [("A", "B", (1 : ℚ))]) "Z" "Z" = some (some 0) := by
  refine ⟨by decide!, by decide!, by decide!⟩

/-- Witness for the amended C5. -/
theorem claim_C5_witness :
    ("Z" ∉ (fromEdges [("A", "B", (1 : ℚ))]).nodes) ∧
    (bellman_ford (fromEdges [("A", "B", (1 : ℚ))]) "Z" =
        some ((bfInit "Z").dist, (bfInit "Z").pred, []) ∧
      (bfInit "Z").dist "Z" = some 0 ∧
      (∀ v ∈ (fromEdges [("A", "B", (1 : ℚ))]).nodes,
        (bfInit "Z").dist v = none) ∧
      ∀ v : String, (bfInit "Z").pred v = none) := by
  refine ⟨by decide!, claim_C5 _ "Z" (fromEdges_WF _) (by decide!)⟩

/-! ## Claim C7: path reconstruction -/

/-- C7: whenever the backward walk of `reconstruct_path` completes (every
lookup stays inside the predecessor dict's key set), the resulting sequence
is returned exactly when its first element equals `start`, and `None`
otherwise; and on the predecessor map of a completed run with no reachable
negative cycle, `reconstruct_path(pred, s, s)` returns `[s]` PROVIDED `s`
is a node of the graph — for an absent `s` the very first lookup
`predecessor[s]` raises `KeyError` instead of returning. -/
theorem claim_C7 (g : DiGraph α) (s : α) (hwf : AdjWF g.adj)
    (hs : s ∈ g.nodes) (hnc : ¬ NegCycleReachable g s) :
    (∀ (keys : List α) (p : α → Option α) (start e : α) (fuel : Nat)
        (path : List α),
        buildPath keys p fuel e = some path →
        reconstruct_path keys p start e fuel =
          some (if path.head? = some start then some path else none)) ∧
    ∀ (d : α → Option ℚ) (p : α → Option α) (c : List (α × α)),
      bellman_ford g s = some (d, p, c) →
      ∀ fuel, 1 ≤ fuel →
        reconstruct_path g.nodes p s s fuel = some (some [s]) := by
  constructor
  · intro keys p start e fuel path hb
    unfold reconstruct_path
    rw [hb]
    rfl
  · intro d p c hrun fuel hfuel
    obtain ⟨-, hp⟩ := bellman_ford_components hrun
    have hpred_s : (bfRelaxed g s).pred s = none := by
      by_contra hps
      have hdrop := (bfRelaxed_invLite hwf s).2.1 s hps
      rw [bfRelaxed_dist_source hnc, bfInit_dist_self] at hdrop
      simp [pyLt] at hdrop
    obtain ⟨m, rfl⟩ : ∃ m, fuel = m + 1 := ⟨fuel - 1, by omega⟩
    rw [hp]
    unfold reconstruct_path
    have hb : buildPath g.nodes (bfRelaxed g s).pred (m + 1) s = some [s] := by
      show (if s ∈ g.nodes then
          match (bfRelaxed g s).pred s with
          | none => some [s]
          | some e2 => (buildPath g.nodes (bfRelaxed g s).pred m e2).map
              (fun l => l ++ [s])
        else none) = some [s]
      rw [if_pos hs, hpred_s]
    rw [hb]
    simp

/-- C7 counterexample: on the acyclic example run from the absent source
`Q`, the run itself completes (per the corrected C5), there is no reachable
negative cycle, yet `reconstruct_path(pred, Q, Q)` raises `KeyError` at the
lookup `predecessor[Q]` (the outer-level `none`) instead of returning
`[Q]`. -/
theorem claim_C7_counterexample :
    (¬ NegCycleReachable exAcyclic "Q") ∧
    bfCycle exAcyclic "Q" = some [] ∧
    runReconstruct exAcyclic "Q" "Q" = some none := by
  have hwf : AdjWF exAcyclic.adj := fromEdges_WF _
  have hdet : detect exAcyclic (bfRelaxed exAcyclic "Q") = none := by decide!
  exact ⟨noNegCycle_of_detect_none hwf hdet, by decide!, by decide!⟩

/-- Witness for C7 at the acyclic example. -/
theorem claim_C7_witness :
    (¬ NegCycleReachable exAcyclic "U") ∧ "U" ∈ exAcyclic.nodes ∧
    reconstruct_path exAcyclic.nodes (bfRelaxed exAcyclic "U").pred "U" "U" 8 =
      some (some ["U"]) := by
  have hwf : AdjWF exAcyclic.adj := fromEdges_WF _
  have hdet : detect exAcyclic (bfRelaxed exAcyclic "U") = none := by decide!
  have hnc := noNegCycle_of_detect_none hwf hdet
  refine ⟨hnc, by decide!, ?_⟩
  exact (claim_C7 exAcyclic "U" hwf (by decide!) hnc).2 _ _ _
    (bellman_ford_of_detect_none hdet) 8 (by omega)

/-! ## Claim C10: unreachable nodes -/

/-- C10: after a completed `run(source)` on a graph containing `source`,
every node with no directed walk from `source` has distance `+inf` and
predecessor `None`: an update from a node at `+inf` never fires. -/
theorem claim_C10 (g : DiGraph α) (s v : α) (hwf : AdjWF g.adj)
    (hs : s ∈ g.nodes) (hnr : ¬ Reachable g s v)
    (d : α → Option ℚ) (p : α → Option α) (c : List (α × α))
    (hrun : bellman_ford g s = some (d, p, c)) :
    d v = none ∧ p v = none := by
  obtain ⟨hd, hp⟩ := bellman_ford_components hrun
  obtain ⟨h1, h2⟩ := bfRelaxed_unreachable hwf hnr
  rw [hd, hp]
  exact ⟨h1, h2⟩

/-- Witness for C10 on a two-component graph. -/
theorem claim_C10_witness :
    ("A" ∈ exTwoComp.nodes) ∧ (¬ Reachable exTwoComp "A" "C") ∧
    ((bfRelaxed exTwoComp "A").dist "C" = none ∧
     (bfRelaxed exTwoComp "A").pred "C" = none) := by
  have hwf : AdjWF exTwoComp.adj := fromEdges_WF _
  have hdet : detect exTwoComp (bfRelaxed exTwoComp "A") = none := by decide!
  have hnr : ¬ Reachable exTwoComp "A" "C" :=
    unreachable_of_dist_none hwf (by decide!)
  refine ⟨by decide!, hnr, ?_⟩
  exact claim_C10 exTwoComp "A" "C" hwf (by decide!) hnr _ _ _
    (bellman_ford_of_detect_none hdet)

/-! ## Claim C3: structure of the relaxation phase -/

theorem specGuard_eq_canRelax (st : BFState α) (e : α × α × ℚ) :
    specGuard st e = canRelax st e := by
  unfold specGuard canRelax
  cases h : st.dist e.1 with
  | none => rfl
  | some du => rfl

/-- C3: the run performs exactly `|V| - 1` relaxation passes, each a full
sweep of `G.edges`, and a single edge step updates
`distance(v) := distance(u) + w` and `predecessor(v) := u` exactly when
`distance(u)` is finite and `distance(u) + w < distance(v)` (the code's
guard without the finiteness test is equivalent, since `inf + w < x` never
holds). -/
theorem claim_C3 (g : DiGraph α) (s : α) :
    bfRelaxed g s = (relaxPass g)^[g.nodes.length - 1] (bfInit s) ∧
    (∀ st : BFState α, relaxPass g st = g.edges.foldl relaxEdge st) ∧
    ∀ (st : BFState α) (e : α × α × ℚ),
      relaxEdge st e =
        if specGuard st e then
          ⟨updf st.dist e.2.1 (pyAdd (st.dist e.1) e.2.2),
           updf st.pred e.2.1 (some e.1)⟩
        else st := by
  refine ⟨rfl, fun st => rfl, fun st e => ?_⟩
  rw [specGuard_eq_canRelax]
  by_cases hc : canRelax st e = true
  · rw [if_pos hc]
    exact relaxEdge_fired hc
  · have hf : canRelax st e = false := Bool.not_eq_true _ ▸ hc
    rw [if_neg (by simp [hf])]
    exact relaxEdge_not_fired hf

/-! ## Claim C4: the detection anchor -/

/-- C4 (amended): the cycle-detection anchor is the target of the first
still-relaxable edge in the order `G.edges(data="weight")` iterates —
grouped by source node in insertion order — which is deterministic for a
fixed graph; it is not, in general, raw edge insertion order. -/
theorem claim_C4 (g : DiGraph α) (st : BFState α) :
    detect g st = firstRelaxTarget st g.edges := by
  unfold detect
  generalize g.edges = l
  induction l with
  | nil => rfl
  | cons e l ih =>
    unfold firstRelaxTarget
    by_cases hc : canRelax st e = true
    · rw [List.find?_cons_of_pos _ hc, if_pos hc]
      rfl
    · have hf : canRelax st e = false := Bool.not_eq_true _ ▸ hc
      rw [List.find?_cons_of_neg _ (by simp [hf]), if_neg (by simp [hf])]
      exact ih

/-- Counterexample to C4 as stated: on `exAnchorG` the detection pass
anchors at `"z"` (first relaxable edge in adjacency iteration order), while
the first still-relaxable edge in raw insertion order targets `"y"`. -/
theorem claim_C4_counterexample :
    detect exAnchorG (bfRelaxed exAnchorG "S") = some "z" ∧
    firstRelaxTarget (bfRelaxed exAnchorG "S") exAnchorEdges = some "y" ∧
    ("z" : String) ≠ "y" := by
  refine ⟨by decide!, by decide!, by decide!⟩

/-! ## Claim C6: construction edge cases -/

/-- C6 (amended): `fromEdges([])` does fail — the empty list is falsy, so
the constructor falls through to the missing-input `ValueError` — but a
chain built from a single entity does not fail: it produces a graph with no
nodes and no edges. -/
theorem claim_C6 :
    (proteinGraphInit (some ([] : List (String × String × ℚ))) none =
      .error "Must provide either edges or pdb_file") ∧
    proteinGraphInit (none : Option (List (String × String × ℚ)))
        (some ["only"]) = .ok (fromEdges (chainEdges ["only"])) ∧
    (fromEdges (chainEdges (["only"] : List String))).nodes = [] ∧
    (fromEdges (chainEdges (["only"] : List String))).edges = [] := by
  refine ⟨rfl, rfl, by decide!, by decide!⟩

/-- Counterexample to C6 as stated: the single-node chain constructor
returns a graph (the empty one) instead of failing. -/
theorem claim_C6_counterexample :
    proteinGraphInit (none : Option (List (String × String × ℚ)))
      (some ["only"]) = .ok ⟨[]⟩ := rfl

/-! ## Claim C9: termination of cycle extraction -/

theorem iteratePred_add (p : α → Option α) (m n : Nat) (x : α) :
    iteratePred p (m + n) x =
      match iteratePred p m x with
      | none => none
      | some y => iteratePred p n y := by
  induction m generalizing x with
  | zero =>
    rw [Nat.zero_add]
    rfl
  | succ m ih =>
    rw [show m + 1 + n = (m + n) + 1 from by omega]
    show (match p x with
      | none => none
      | some y => iteratePred p (m + n) y) =
      match (match p x with
        | none => none
        | some y => iteratePred p m y) with
      | none => none
      | some y => iteratePred p n y
    cases hp : p x with
    | none => rfl
    | some y => exact ih y

theorem iteratePred_add_some {p : α → Option α} {m n : Nat} {x y : α}
    (h : iteratePred p m x = some y) :
    iteratePred p (m + n) x = iteratePred p n y := by
  rw [iteratePred_add, h]

theorem iteratePred_prefix_some {p : α → Option α} {n : Nat} {x y : α}
    (h : iteratePred p n x = some y) {i : Nat} (hi : i ≤ n) :
    ∃ z, iteratePred p i x = some z := by
  cases hz : iteratePred p i x with
  | some z => exact ⟨z, rfl⟩
  | none =>
    exfalso
    have := iteratePred_add p i (n - i) x
    rw [hz] at this
    rw [show i + (n - i) = n from by omega] at this
    rw [this] at h
    cases h

theorem iteratePred_mem_nodes {g : DiGraph α} {st : BFState α}
    (hpn : PredInNodes g st) {n : Nat} {x y : α}
    (h : iteratePred st.pred n x = some y) (hx : x ∈ g.nodes) : y ∈ g.nodes := by
  induction n generalizing x with
  | zero =>
    have : x = y := by injection h
    rw [← this]
    exact hx
  | succ n ih =>
    revert h
    show (match st.pred x with
      | none => none
      | some z => iteratePred st.pred n z) = some y → _
    cases hp : st.pred x with
    | none => intro h; cases h
    | some z =>
      intro h
      exact ih h (hpn x z hp)

theorem cycleWalk_length {p : α → Option α} {c0 : α} :
    ∀ {fuel : Nat} {cur : α} {es : List (α × α)},
      cycleWalk p c0 fuel cur = some es → es.length ≤ fuel := by
  intro fuel
  induction fuel with
  | zero => intro cur es h; cases h
  | succ fuel ih =>
    intro cur es h
    revert h
    show (match p cur with
      | none => none
      | some prev =>
        if prev = c0 then some [(prev, cur)]
        else (cycleWalk p c0 fuel prev).map (fun l => (prev, cur) :: l)) =
        some es → _
    cases hp : p cur with
    | none => intro h; cases h
    | some prev =>
      show (if prev = c0 then some [(prev, cur)]
          else (cycleWalk p c0 fuel prev).map (fun l => (prev, cur) :: l)) =
          some es → es.length ≤ fuel + 1
      by_cases hc : prev = c0
      · rw [if_pos hc]
        intro h
        have hes : [(prev, cur)] = es := by injection h
        rw [← hes]
        simp
      · rw [if_neg hc]
        intro h
        rw [Option.map_eq_some'] at h
        obtain ⟨l, hl, rfl⟩ := h
        have := ih hl
        simp
        omega

theorem cycleWalk_some_of_return {p : α → Option α} {c0 : α} :
    ∀ (fuel : Nat) (cur : α) (m : Nat), 1 ≤ m → m ≤ fuel →
      iteratePred p m cur = some c0 →
      ∃ es, cycleWalk p c0 fuel cur = some es := by
  intro fuel
  induction fuel with
  | zero => intro cur m h1 h2 _; omega
  | succ fuel ih =>
    intro cur m h1 h2 hit
    obtain ⟨m2, rfl⟩ : ∃ m2, m = m2 + 1 := ⟨m - 1, by omega⟩
    rw [show m2 + 1 = 1 + m2 from by omega] at hit
    have hstep : iteratePred p 1 cur =
        match p cur with
        | none => none
        | some y => some y := by
      show (match p cur with
        | none => none
        | some y => iteratePred p 0 y) = _
      cases p cur <;> rfl
    cases hp : p cur with
    | none =>
      exfalso
      have := iteratePred_add p 1 m2 cur
      rw [show (1 : Nat) + m2 = 1 + m2 from rfl] at this
      rw [this, hstep, hp] at hit
      cases hit
    | some y =>
      have hit2 : iteratePred p m2 y = some c0 := by
        have := iteratePred_add p 1 m2 cur
        rw [this, hstep, hp] at hit
        exact hit
      show ∃ es, (match p cur with
        | none => none
        | some prev =>
          if prev = c0 then some [(prev, cur)]
          else (cycleWalk p c0 fuel prev).map (fun l => (prev, cur) :: l)) =
          some es
      rw [hp]
      show ∃ es, (if y = c0 then some [(y, cur)]
        else (cycleWalk p c0 fuel y).map (fun l => (y, cur) :: l)) = some es
      by_cases hc : y = c0
      · rw [if_pos hc]
        exact ⟨[(y, cur)], rfl⟩
      · rw [if_neg hc]
        have hm2 : 1 ≤ m2 := by
          by_contra hm
          have hm0 : m2 = 0 := by omega
          rw [hm0] at hit2
          have : y = c0 := by injection hit2
          exact hc this
        obtain ⟨es, hes⟩ := ih y m2 hm2 (by omega) hit2
        exact ⟨(y, cur) :: es, by rw [hes]; rfl⟩

/-- Step of the rho argument: two equal trajectory values at indices
`i < j ≤ N` give a predecessor cycle through the walk's endpoint. -/
theorem walk_repeat_gives_cycle {p : α → Option α} {v c0 : α} {N : Nat}
    (hiter : iteratePred p N v = some c0) {i j : Nat} (hij : i < j)
    (hjN : j ≤ N)
    (heq : (iteratePred p i v).getD v = (iteratePred p j v).getD v) :
    ∃ m, 1 ≤ m ∧ m ≤ N ∧ iteratePred p m c0 = some c0 := by
  obtain ⟨zi, hzi⟩ := iteratePred_prefix_some hiter (by omega : i ≤ N)
  obtain ⟨zj, hzj⟩ := iteratePred_prefix_some hiter hjN
  rw [hzi, hzj] at heq
  simp only [Option.getD_some] at heq
  rw [← heq] at hzj
  have hstepj : iteratePred p (j - i) zi = some zi := by
    have h1 := iteratePred_add_some (n := j - i) hzi
    rw [show i + (j - i) = j from by omega] at h1
    rw [← h1]
    exact hzj
  have hq : iteratePred p (N - i) zi = some c0 := by
    have h1 := iteratePred_add_some (n := N - i) hzi
    rw [show i + (N - i) = N from by omega] at h1
    rw [← h1]
    exact hiter
  refine ⟨j - i, by omega, by omega, ?_⟩
  have h2 : iteratePred p ((j - i) + (N - i)) zi = some c0 := by
    rw [iteratePred_add_some hstepj]
    exact hq
  have h3 : iteratePred p ((N - i) + (j - i)) zi =
      iteratePred p (j - i) c0 := iteratePred_add_some hq
  rw [show (N - i) + (j - i) = (j - i) + (N - i) from by omega] at h3
  rw [← h3]
  exact h2

/-- The rho argument: if the `|V|`-step backward walk from a node of the
graph completes, its endpoint lies on a predecessor cycle of length at most
`|V|`. -/
theorem walk_lands_on_cycle {g : DiGraph α} {st : BFState α}
    (hpn : PredInNodes g st) {v c0 : α} (hv : v ∈ g.nodes)
    (hiter : iteratePred st.pred g.nodes.length v = some c0) :
    ∃ m, 1 ≤ m ∧ m ≤ g.nodes.length ∧ iteratePred st.pred m c0 = some c0 := by
  have hmaps : ∀ i ∈ Finset.range (g.nodes.length + 1),
      (iteratePred st.pred i v).getD v ∈ g.nodes.toFinset := by
    intro i hi
    rw [Finset.mem_range] at hi
    obtain ⟨z, hz⟩ := iteratePred_prefix_some hiter
      (by omega : i ≤ g.nodes.length)
    rw [hz]
    exact List.mem_toFinset.mpr (iteratePred_mem_nodes hpn hz hv)
  have hcard : g.nodes.toFinset.card < (Finset.range (g.nodes.length + 1)).card := by
    rw [Finset.card_range]
    have := List.toFinset_card_le (l := g.nodes)
    omega
  obtain ⟨i, hi, j, hj, hne, heq⟩ :=
    Finset.exists_ne_map_eq_of_card_lt_of_maps_to hcard hmaps
  rw [Finset.mem_range] at hi hj
  rcases Nat.lt_or_ge i j with hij | hij
  · exact walk_repeat_gives_cycle hiter hij (by omega) heq
  · have hji : j < i := by omega
    exact walk_repeat_gives_cycle hiter hji (by omega) heq.symm

/-- C9 (amended): whenever the detection pass finds a still-relaxable edge
AND the `|V|`-step backward walk from the anchor completes (never reading
the predecessor of `None`), the unbounded backward while-loop terminates:
it returns to its starting node within `|V| + 1` recorded edges and
`bellman_ford` returns the extracted cycle.  (The completion hypothesis is
necessary: see the counterexample, where the walk hits `None` and the code
raises `KeyError`.) -/
theorem claim_C9 (g : DiGraph α) (s : α) (hwf : AdjWF g.adj) (v c0 : α)
    (hdet : detect g (bfRelaxed g s) = some v)
    (hiter : iteratePred (bfRelaxed g s).pred g.nodes.length v = some c0) :
    ∃ es, cycleWalk (bfRelaxed g s).pred c0 (g.nodes.length + 1) c0 = some es ∧
      bellman_ford g s =
        some ((bfRelaxed g s).dist, (bfRelaxed g s).pred, es) ∧
      es.length ≤ g.nodes.length + 1 := by
  have hv : v ∈ g.nodes := by
    unfold detect at hdet
    rw [Option.map_eq_some'] at hdet
    obtain ⟨e, hfind, heq⟩ := hdet
    rw [← heq]
    exact (edge_endpoints_mem hwf (show (e.1, e.2.1, e.2.2) ∈ g.edges from
      List.mem_of_find?_eq_some hfind)).2
  have hpn : PredInNodes g (bfRelaxed g s) := (bfRelaxed_invLite hwf s).2.2.1
  obtain ⟨m, hm1, hm2, hmc⟩ := walk_lands_on_cycle hpn hv hiter
  obtain ⟨es, hes⟩ :=
    cycleWalk_some_of_return (g.nodes.length + 1) c0 m hm1 (by omega) hmc
  refine ⟨es, hes, ?_, cycleWalk_length hes⟩
  show (match detect g (bfRelaxed g s) with
    | none => some ((bfRelaxed g s).dist, (bfRelaxed g s).pred, ([] : List (α × α)))
    | some v2 =>
      match iteratePred (bfRelaxed g s).pred g.nodes.length v2 with
      | none => none
      | some c1 =>
        Option.map (fun es2 => ((bfRelaxed g s).dist, (bfRelaxed g s).pred, es2))
          (cycleWalk (bfRelaxed g s).pred c1 (g.nodes.length + 1) c1)) = _
  rw [hdet]
  show (match iteratePred (bfRelaxed g s).pred g.nodes.length v with
    | none => none
    | some c1 =>
      Option.map (fun es2 => ((bfRelaxed g s).dist, (bfRelaxed g s).pred, es2))
        (cycleWalk (bfRelaxed g s).pred c1 (g.nodes.length + 1) c1)) = _
  rw [hiter]
  show Option.map (fun es2 => ((bfRelaxed g s).dist, (bfRelaxed g s).pred, es2))
      (cycleWalk (bfRelaxed g s).pred c0 (g.nodes.length + 1) c0) = _
  rw [hes]
  rfl

/-- Counterexample to C9 as stated: on the single-node negative self-loop,
detection fires, yet the `|V|`-step backward walk immediately reaches a
node whose predecessor is `None`, and `bellman_ford` raises (`KeyError`)
instead of returning. -/
theorem claim_C9_counterexample :
    detect exSelfLoop (bfRelaxed exSelfLoop "A") = some "A" ∧
    iteratePred (bfRelaxed exSelfLoop "A").pred exSelfLoop.nodes.length "A" =
      none ∧
    bfCycle exSelfLoop "A" = none := by
  refine ⟨by decide!, by decide!, by decide!⟩

/-- Witness for the amended C9 at the repository's negative-cycle example. -/
theorem claim_C9_witness :
    detect exNegCycle (bfRelaxed exNegCycle "U") = some "B" ∧
    iteratePred (bfRelaxed exNegCycle "U").pred exNegCycle.nodes.length "B" =
      some "A" ∧
    ∃ es, cycleWalk (bfRelaxed exNegCycle "U").pred "A"
        (exNegCycle.nodes.length + 1) "A" = some es ∧
      bellman_ford exNegCycle "U" =
        some ((bfRelaxed exNegCycle "U").dist, (bfRelaxed exNegCycle "U").pred, es) ∧
      es.length ≤ exNegCycle.nodes.length + 1 := by
  refine ⟨by decide!, by decide!,
    claim_C9 exNegCycle "U" (fromEdges_WF _) "B" "A" (by decide!) (by decide!)⟩

/-! ## Weights along predecessor chains -/

theorem iteratePred_succ_some {p : α → Option α} {n : Nat} {x y : α}
    (h : iteratePred p (n + 1) x = some y) :
    ∃ u, p x = some u ∧ iteratePred p n u = some y := by
  revert h
  show (match p x with
    | none => none
    | some z => iteratePred p n z) = some y → _
  cases hp : p x with
  | none => intro h; cases h
  | some u => intro h; exact ⟨u, rfl, h⟩

theorem predWalkWeight_pred_none {g : DiGraph α} {st : BFState α} {n : Nat}
    {x : α} (hp : st.pred x = none) :
    predWalkWeight g st (n + 1) x = none := by
  show (match st.pred x with
    | none => none
    | some u2 =>
      match edgeWeight g u2 x, predWalkWeight g st n u2 with
      | some w2, some rest2 => some (w2 + rest2)
      | _, _ => none) = none
  rw [hp]

theorem predWalkWeight_succ_eq {g : DiGraph α} {st : BFState α} {n : Nat}
    {x u : α} {w rest : ℚ} (hp : st.pred x = some u)
    (hw : edgeWeight g u x = some w)
    (hrest : predWalkWeight g st n u = some rest) :
    predWalkWeight g st (n + 1) x = some (w + rest) := by
  show (match st.pred x with
    | none => none
    | some u2 =>
      match edgeWeight g u2 x, predWalkWeight g st n u2 with
      | some w2, some rest2 => some (w2 + rest2)
      | _, _ => none) = some (w + rest)
  rw [hp]
  show (match edgeWeight g u x, predWalkWeight g st n u with
    | some w2, some rest2 => some (w2 + rest2)
    | _, _ => none) = some (w + rest)
  rw [hw, hrest]

theorem predWalkWeight_succ_none_left {g : DiGraph α} {st : BFState α}
    {n : Nat} {x u : α} (hp : st.pred x = some u)
    (hw : edgeWeight g u x = none) :
    predWalkWeight g st (n + 1) x = none := by
  show (match st.pred x with
    | none => none
    | some u2 =>
      match edgeWeight g u2 x, predWalkWeight g st n u2 with
      | some w2, some rest2 => some (w2 + rest2)
      | _, _ => none) = none
  rw [hp]
  show (match edgeWeight g u x, predWalkWeight g st n u with
    | some w2, some rest2 => some (w2 + rest2)
    | _, _ => none) = none
  rw [hw]

theorem predWalkWeight_succ_none_right {g : DiGraph α} {st : BFState α}
    {n : Nat} {x u : α} {w : ℚ} (hp : st.pred x = some u)
    (hw : edgeWeight g u x = some w)
    (hrest : predWalkWeight g st n u = none) :
    predWalkWeight g st (n + 1) x = none := by
  show (match st.pred x with
    | none => none
    | some u2 =>
      match edgeWeight g u2 x, predWalkWeight g st n u2 with
      | some w2, some rest2 => some (w2 + rest2)
      | _, _ => none) = none
  rw [hp]
  show (match edgeWeight g u x, predWalkWeight g st n u with
    | some w2, some rest2 => some (w2 + rest2)
    | _, _ => none) = none
  rw [hw, hrest]

theorem predWalkWeight_some_of_iter {g : DiGraph α} {st : BFState α}
    (hok : PredOK g st) :
    ∀ (n : Nat) (x y : α), iteratePred st.pred n x = some y →
      ∃ W, predWalkWeight g st n x = some W := by
  intro n
  induction n with
  | zero => intro x y _; exact ⟨0, rfl⟩
  | succ n ih =>
    intro x y h
    obtain ⟨u, hu, hrest⟩ := iteratePred_succ_some h
    obtain ⟨w, dx, du, hw, -, -, -⟩ := hok x u hu
    obtain ⟨R, hR⟩ := ih u y hrest
    exact ⟨w + R, predWalkWeight_succ_eq hu hw hR⟩

theorem predWalkWeight_add {g : DiGraph α} {st : BFState α} :
    ∀ (m : Nat) (x y : α), iteratePred st.pred m x = some y →
      ∀ (n : Nat) (a b : ℚ), predWalkWeight g st m x = some a →
        predWalkWeight g st n y = some b →
        predWalkWeight g st (m + n) x = some (a + b) := by
  intro m
  induction m with
  | zero =>
    intro x y hit n a b ha hb
    have hxy : x = y := by
      have h2 : (some x : Option α) = some y := hit
      injection h2
    have ha0 : a = 0 := by
      have h2 : (some (0 : ℚ)) = some a := ha
      injection h2 with h3
      exact h3.symm
    rw [Nat.zero_add, hxy, hb, ha0]
    norm_num
  | succ m ih =>
    intro x y hit n a b ha hb
    obtain ⟨u, hu, hrest⟩ := iteratePred_succ_some hit
    cases hw : edgeWeight g u x with
    | none =>
      exfalso
      rw [predWalkWeight_succ_none_left hu hw] at ha
      cases ha
    | some w =>
      cases hrw : predWalkWeight g st m u with
      | none =>
        exfalso
        rw [predWalkWeight_succ_none_right hu hw hrw] at ha
        cases ha
      | some rest =>
        rw [predWalkWeight_succ_eq hu hw hrw] at ha
        have haeq : w + rest = a := by injection ha
        have hih := ih u y hrest n rest b hrw hb
        rw [show m + 1 + n = (m + n) + 1 from by omega]
        rw [predWalkWeight_succ_eq hu hw hih]
        rw [show w + (rest + b) = (w + rest) + b from by ring, haeq]

/-- Telescoping the `PredOK` inequalities along a chain of length `n + 1`. -/
theorem pred_chain_bound {g : DiGraph α} {st : BFState α} (hok : PredOK g st) :
    ∀ (n : Nat) (x y : α), iteratePred st.pred (n + 1) x = some y →
      ∃ W dx dy, predWalkWeight g st (n + 1) x = some W ∧
        st.dist x = some dx ∧ st.dist y = some dy ∧ dy + W ≤ dx := by
  intro n
  induction n with
  | zero =>
    intro x y hit
    obtain ⟨u, hu, hrest⟩ := iteratePred_succ_some hit
    have huy : u = y := by
      have h2 : (some u : Option α) = some y := hrest
      injection h2
    subst huy
    obtain ⟨w, dx, du, hw, hdx, hdu, hle⟩ := hok x u hu
    refine ⟨w + 0, dx, du, predWalkWeight_succ_eq hu hw rfl, hdx, hdu, ?_⟩
    rw [add_zero]
    exact hle
  | succ n ih =>
    intro x y hit
    obtain ⟨u, hu, hrest⟩ := iteratePred_succ_some hit
    obtain ⟨W2, du2, dy, hW2, hdu2, hdy, hle2⟩ := ih u y hrest
    obtain ⟨w, dx, du, hw, hdx, hdu, hle⟩ := hok x u hu
    have hdueq : du = du2 := by
      rw [hdu] at hdu2
      injection hdu2
    refine ⟨w + W2, dx, dy, predWalkWeight_succ_eq hu hw hW2, hdx, hdy, ?_⟩
    rw [hdueq] at hle
    linarith

/-! ## Congruence for chains avoiding the updated node -/

theorem iteratePred_congr {p p2 : α → Option α} :
    ∀ (n : Nat) (x : α),
      (∀ i z, i < n → iteratePred p2 i x = some z → p2 z = p z) →
      iteratePred p2 n x = iteratePred p n x := by
  intro n
  induction n with
  | zero => intro x _; rfl
  | succ n ih =>
    intro x hav
    have hx : p2 x = p x := hav 0 x (by omega) rfl
    show (match p2 x with
      | none => none
      | some z => iteratePred p2 n z) =
      match p x with
      | none => none
      | some z => iteratePred p n z
    rw [← hx]
    cases hp : p2 x with
    | none => rfl
    | some y =>
      show iteratePred p2 n y = iteratePred p n y
      refine ih y (fun i z hi hz => hav (i + 1) z (by omega) ?_)
      show (match p2 x with
        | none => none
        | some z2 => iteratePred p2 i z2) = some z
      rw [hp]
      exact hz

theorem predWalkWeight_congr {g : DiGraph α} {st st2 : BFState α} :
    ∀ (n : Nat) (x : α),
      (∀ i z, i < n → iteratePred st2.pred i x = some z →
        st2.pred z = st.pred z) →
      predWalkWeight g st2 n x = predWalkWeight g st n x := by
  intro n
  induction n with
  | zero => intro x _; rfl
  | succ n ih =>
    intro x hav
    have hx : st2.pred x = st.pred x := hav 0 x (by omega) rfl
    cases hp : st2.pred x with
    | none =>
      have hp2 : st.pred x = none := by rw [← hx]; exact hp
      rw [predWalkWeight_pred_none hp, predWalkWeight_pred_none hp2]
    | some u =>
      have hp2 : st.pred x = some u := by rw [← hx]; exact hp
      have hrec : predWalkWeight g st2 n u = predWalkWeight g st n u := by
        refine ih u (fun i z hi hz => hav (i + 1) z (by omega) ?_)
        show (match st2.pred x with
          | none => none
          | some z2 => iteratePred st2.pred i z2) = some z
        rw [hp]
        exact hz
      cases hw : edgeWeight g u x with
      | none =>
        rw [predWalkWeight_succ_none_left hp hw,
          predWalkWeight_succ_none_left hp2 hw]
      | some w =>
        cases hr2 : predWalkWeight g st2 n u with
        | none =>
          have hr3 : predWalkWeight g st n u = none := by
            rw [← hrec]; exact hr2
          rw [predWalkWeight_succ_none_right hp hw hr2,
            predWalkWeight_succ_none_right hp2 hw hr3]
        | some rest =>
          have hr3 : predWalkWeight g st n u = some rest := by
            rw [← hrec]; exact hr2
          rw [predWalkWeight_succ_eq hp hw hr2,
            predWalkWeight_succ_eq hp2 hw hr3]

/-! ## Powers of a predecessor cycle -/

theorem iteratePred_cycle_pow {p : α → Option α} {m : Nat} {c : α}
    (h : iteratePred p m c = some c) :
    ∀ q, iteratePred p (q * m) c = some c := by
  intro q
  induction q with
  | zero =>
    rw [Nat.zero_mul]
    rfl
  | succ q ih =>
    rw [show (q + 1) * m = q * m + m from by ring]
    rw [iteratePred_add p (q * m) m c, ih]
    exact h

theorem predWalkWeight_cycle_pow {g : DiGraph α} {st : BFState α} {m : Nat}
    {c : α} {Wm : ℚ} (hit : iteratePred st.pred m c = some c)
    (hW : predWalkWeight g st m c = some Wm) :
    ∀ q, predWalkWeight g st (q * m) c = some ((q : ℚ) * Wm) := by
  intro q
  induction q with
  | zero =>
    rw [Nat.zero_mul]
    show (some (0 : ℚ)) = some (((0 : Nat) : ℚ) * Wm)
    norm_num
  | succ q ih =>
    rw [show (q + 1) * m = q * m + m from by ring]
    have hstep := predWalkWeight_add (q * m) c c (iteratePred_cycle_pow hit q) m
      ((q : ℚ) * Wm) Wm ih hW
    rw [hstep]
    push_cast
    ring_nf

/-- Reduce any predecessor cycle to a minimal-length one at the same node,
whose length divides the original. -/
theorem exists_minimal_cycle {p : α → Option α} {c : α} {k : Nat}
    (hk : 1 ≤ k) (hit : iteratePred p k c = some c) :
    ∃ m, 1 ≤ m ∧ m ≤ k ∧ iteratePred p m c = some c ∧
      (∀ i, 1 ≤ i → i < m → iteratePred p i c ≠ some c) ∧ m ∣ k := by
  have hex : ∃ i, iteratePred p (i + 1) c = some c :=
    ⟨k - 1, by rw [show k - 1 + 1 = k from by omega]; exact hit⟩
  refine ⟨Nat.find hex + 1, by omega, ?_, Nat.find_spec hex, ?_, ?_⟩
  case _ =>
    by_contra hc
    have hlt : k - 1 < Nat.find hex := by omega
    have hmin := Nat.find_min hex hlt
    rw [show k - 1 + 1 = k from by omega] at hmin
    exact hmin hit
  case _ =>
    intro i h1 h2 hic
    have hlt : i - 1 < Nat.find hex := by omega
    have hmin := Nat.find_min hex hlt
    rw [show i - 1 + 1 = i from by omega] at hmin
    exact hmin hic
  case _ =>
    have hmk : Nat.find hex + 1 ≤ k := by
      by_contra hc
      have hlt : k - 1 < Nat.find hex := by omega
      have hmin := Nat.find_min hex hlt
      rw [show k - 1 + 1 = k from by omega] at hmin
      exact hmin hit
    have hpow : iteratePred p
        ((k / (Nat.find hex + 1)) * (Nat.find hex + 1)) c = some c :=
      iteratePred_cycle_pow (Nat.find_spec hex) _
    have hadd := iteratePred_add p
      ((k / (Nat.find hex + 1)) * (Nat.find hex + 1))
      (k % (Nat.find hex + 1)) c
    rw [hpow] at hadd
    have hdm2 : (k / (Nat.find hex + 1)) * (Nat.find hex + 1) +
        k % (Nat.find hex + 1) = k := by
      rw [Nat.mul_comm]
      exact Nat.div_add_mod k (Nat.find hex + 1)
    rw [hdm2] at hadd
    have hadd2 : iteratePred p k c =
        iteratePred p (k % (Nat.find hex + 1)) c := hadd
    have hmod : iteratePred p (k % (Nat.find hex + 1)) c = some c := by
      rw [← hadd2]
      exact hit
    have hz : k % (Nat.find hex + 1) = 0 := by
      by_contra hc
      have hlt2 : k % (Nat.find hex + 1) < Nat.find hex + 1 :=
        Nat.mod_lt _ (by omega)
      have hlt : k % (Nat.find hex + 1) - 1 < Nat.find hex := by omega
      have hmin := Nat.find_min hex hlt
      rw [show k % (Nat.find hex + 1) - 1 + 1 = k % (Nat.find hex + 1) from
        by omega] at hmin
      exact hmin hmod
    exact Nat.dvd_of_mod_eq_zero hz

/-! ## Preservation of negativity of predecessor cycles -/

theorem relaxEdge_predCyclesNeg {g : DiGraph α} (hwf : AdjWF g.adj)
    {st : BFState α} {e : α × α × ℚ} (he : e ∈ g.edges)
    (hok : PredOK g st) (hS : PredCyclesNeg g st)
    (hok2 : PredOK g (relaxEdge st e)) :
    PredCyclesNeg g (relaxEdge st e) := by
  by_cases hc : canRelax st e = true
  case neg =>
    rw [relaxEdge_not_fired (Bool.not_eq_true _ ▸ hc)]
    exact hS
  case pos =>
  have hdist : (relaxEdge st e).dist =
      updf st.dist e.2.1 (pyAdd (st.dist e.1) e.2.2) := by
    rw [relaxEdge_fired hc]
  have hpred : (relaxEdge st e).pred = updf st.pred e.2.1 (some e.1) := by
    rw [relaxEdge_fired hc]
  intro c k hk hit
  by_cases hvis : ∃ i, i < k ∧ iteratePred (relaxEdge st e).pred i c = some e.2.1
  case neg =>
    push_neg at hvis
    have hcongr : ∀ i z, i < k →
        iteratePred (relaxEdge st e).pred i c = some z →
        (relaxEdge st e).pred z = st.pred z := by
      intro i z hi hz
      have hzv : z ≠ e.2.1 := by
        intro hzeq
        exact hvis i hi (hzeq ▸ hz)
      rw [hpred]
      exact updf_ne _ _ _ hzv
    have hit2 : iteratePred st.pred k c = some c := by
      rw [← iteratePred_congr k c hcongr]
      exact hit
    obtain ⟨W, hW, hWneg⟩ := hS c k hk hit2
    refine ⟨W, ?_, hWneg⟩
    rw [predWalkWeight_congr k c hcongr]
    exact hW
  case pos =>
    obtain ⟨i, hik, hiv⟩ := hvis
    have hsplit1 : iteratePred (relaxEdge st e).pred (k - i) e.2.1 = some c := by
      have h2 := iteratePred_add_some (n := k - i) hiv
      rw [show i + (k - i) = k from by omega] at h2
      rw [← h2]
      exact hit
    have hcycv : iteratePred (relaxEdge st e).pred k e.2.1 = some e.2.1 := by
      have h2 := iteratePred_add_some (n := i) hsplit1
      rw [show (k - i) + i = k from by omega] at h2
      rw [h2]
      exact hiv
    obtain ⟨A, hA⟩ := predWalkWeight_some_of_iter hok2 i c e.2.1 hiv
    obtain ⟨B, hB⟩ := predWalkWeight_some_of_iter hok2 (k - i) e.2.1 c hsplit1
    have hWc : predWalkWeight g (relaxEdge st e) k c = some (A + B) := by
      have h2 := predWalkWeight_add i c e.2.1 hiv (k - i) A B hA hB
      rw [show i + (k - i) = k from by omega] at h2
      exact h2
    have hWv : predWalkWeight g (relaxEdge st e) k e.2.1 = some (B + A) := by
      have h2 := predWalkWeight_add (k - i) e.2.1 c hsplit1 i B A hB hA
      rw [show (k - i) + i = k from by omega] at h2
      exact h2
    obtain ⟨m, hm1, hmk, hmc, hmmin, hmdvd⟩ := exists_minimal_cycle hk hcycv
    have hpv : (relaxEdge st e).pred e.2.1 = some e.1 := by
      rw [hpred]
      exact updf_self _ _ _
    obtain ⟨x, hx⟩ := pyLt_true_some_left hc
    obtain ⟨du, hdu, hsum⟩ := pyAdd_eq_some hx
    have hc2 : pyLt (some x) (st.dist e.2.1) = true := by
      have hcr : canRelax st e =
          pyLt (pyAdd (st.dist e.1) e.2.2) (st.dist e.2.1) := rfl
      rw [hcr, hx] at hc
      exact hc
    have hedge : edgeWeight g e.1 e.2.1 = some e.2.2 :=
      edgeWeight_of_mem hwf (show (e.1, e.2.1, e.2.2) ∈ g.edges from he)
    have hWm : ∃ Wm, predWalkWeight g (relaxEdge st e) m e.2.1 = some Wm ∧
        Wm < 0 := by
      by_cases hm1' : m = 1
      · subst hm1'
        obtain ⟨u2, hu2, hrest2⟩ := iteratePred_succ_some hmc
        have hu2v : u2 = e.2.1 := by
          have h2 : (some u2 : Option α) = some e.2.1 := hrest2
          injection h2
        have huv : e.1 = e.2.1 := by
          rw [hpv] at hu2
          have h2 : e.1 = u2 := by injection hu2
          rw [h2, hu2v]
        have hW1 : predWalkWeight g (relaxEdge st e) 1 e.2.1 =
            some (e.2.2 + 0) := predWalkWeight_succ_eq hpv hedge rfl
        refine ⟨e.2.2 + 0, hW1, ?_⟩
        have hdv : st.dist e.2.1 = some du := by
          rw [← huv]
          exact hdu
        have hxdu : x < du := by
          rw [hdv] at hc2
          simpa [pyLt] using hc2
        linarith
      · have hm2 : 2 ≤ m := by omega
        obtain ⟨u2, hu2, hrest2⟩ := iteratePred_succ_some
          (show iteratePred (relaxEdge st e).pred ((m - 1) + 1) e.2.1 =
            some e.2.1 from by
              rw [show m - 1 + 1 = m from by omega]
              exact hmc)
        have hu2e : u2 = e.1 := by
          rw [hpv] at hu2
          have h2 : e.1 = u2 := by injection hu2
          exact h2.symm
        rw [hu2e] at hrest2
        have havoid : ∀ i2 z, i2 < m - 1 →
            iteratePred (relaxEdge st e).pred i2 e.1 = some z →
            (relaxEdge st e).pred z = st.pred z := by
          intro i2 z hi2 hz
          have hzv : z ≠ e.2.1 := by
            intro hzeq
            subst hzeq
            have hstep : iteratePred (relaxEdge st e).pred (i2 + 1) e.2.1 =
                some e.2.1 := by
              show (match (relaxEdge st e).pred e.2.1 with
                | none => none
                | some y => iteratePred (relaxEdge st e).pred i2 y) = some e.2.1
              rw [hpv]
              exact hz
            exact hmmin (i2 + 1) (by omega) (by omega) hstep
          rw [hpred]
          exact updf_ne _ _ _ hzv
        have hchain_st : iteratePred st.pred (m - 1) e.1 = some e.2.1 := by
          rw [← iteratePred_congr (m - 1) e.1 havoid]
          exact hrest2
        have hwwcongr : predWalkWeight g (relaxEdge st e) (m - 1) e.1 =
            predWalkWeight g st (m - 1) e.1 :=
          predWalkWeight_congr (m - 1) e.1 havoid
        obtain ⟨P, du2, dv, hP, hdu2, hdv, hPle⟩ :=
          pred_chain_bound hok (m - 2) e.1 e.2.1 (by
            rw [show m - 2 + 1 = m - 1 from by omega]
            exact hchain_st)
        have hdueq : du2 = du := by
          rw [hdu] at hdu2
          injection hdu2 with h2
          exact h2.symm
        have hxdv : x < dv := by
          rw [hdv] at hc2
          simpa [pyLt] using hc2
        have hP2 : predWalkWeight g (relaxEdge st e) (m - 1) e.1 = some P := by
          rw [hwwcongr]
          rw [show m - 2 + 1 = m - 1 from by omega] at hP
          exact hP
        have hWmval : predWalkWeight g (relaxEdge st e) m e.2.1 =
            some (e.2.2 + P) := by
          have h2 := predWalkWeight_succ_eq hpv hedge hP2
          rw [show (m - 1) + 1 = m from by omega] at h2
          exact h2
        refine ⟨e.2.2 + P, hWmval, ?_⟩
        linarith
    obtain ⟨Wm, hWmv, hWmneg⟩ := hWm
    obtain ⟨q, hq⟩ := hmdvd
    have hkq : k = q * m := by
      rw [hq]
      ring
    have hpow := predWalkWeight_cycle_pow hmc hWmv q
    rw [← hkq] at hpow
    have hBA : B + A = (q : ℚ) * Wm := by
      rw [hWv] at hpow
      injection hpow
    have hq1 : 1 ≤ q := by
      rcases Nat.eq_zero_or_pos q with h0 | h1
      · rw [h0, Nat.mul_zero] at hq
        omega
      · exact h1
    have hneg : (q : ℚ) * Wm < 0 := by
      have hq1' : (1 : ℚ) ≤ (q : ℚ) := by exact_mod_cast hq1
      nlinarith
    refine ⟨A + B, hWc, ?_⟩
    rw [show A + B = B + A from by ring, hBA]
    exact hneg

theorem foldl_cyclesNeg {g : DiGraph α} {s : α} (hwf : AdjWF g.adj)
    (l : List (α × α × ℚ)) (hsub : ∀ e ∈ l, e ∈ g.edges) (st : BFState α)
    (h : BFInvLite g s st ∧ PredCyclesNeg g st) :
    BFInvLite g s (l.foldl relaxEdge st) ∧
      PredCyclesNeg g (l.foldl relaxEdge st) := by
  induction l generalizing st with
  | nil => exact h
  | cons e l ih =>
    have he : e ∈ g.edges := hsub e (List.mem_cons_self _ _)
    have hlite : BFInvLite g s (relaxEdge st e) := relaxEdge_invLite hwf he h.1
    exact ih (fun f hf => hsub f (List.mem_cons_of_mem _ hf)) _
      ⟨hlite, relaxEdge_predCyclesNeg hwf he h.1.1 h.2 hlite.1⟩

theorem bfRelaxed_predCyclesNeg {g : DiGraph α} (hwf : AdjWF g.adj) (s : α) :
    PredCyclesNeg g (bfRelaxed g s) := by
  suffices h : BFInvLite g s (bfRelaxed g s) ∧ PredCyclesNeg g (bfRelaxed g s) from h.2
  unfold bfRelaxed
  generalize g.nodes.length - 1 = n
  induction n with
  | zero =>
    rw [Function.iterate_zero_apply]
    refine ⟨bfInit_invLite g s, ?_⟩
    intro c k hk hit
    rcases k with _ | k
    · omega
    · exfalso
      have h0 : iteratePred (bfInit s).pred (k + 1) c = none := rfl
      rw [h0] at hit
      cases hit
  | succ n ih =>
    rw [Function.iterate_succ_apply']
    exact foldl_cyclesNeg hwf _ (fun _ hf => hf) _ ih

/-! ## Structure of the extracted cycle list -/

theorem cycleWalk_struct {p : α → Option α} {c0 : α} :
    ∀ {fuel : Nat} {cur : α} {es : List (α × α)},
      cycleWalk p c0 fuel cur = some es →
      es ≠ [] ∧ es.head?.map Prod.snd = some cur ∧
        es.getLast?.map Prod.fst = some c0 ∧
        List.Chain' (fun e1 e2 => e2.2 = e1.1) es := by
  intro fuel
  induction fuel with
  | zero => intro cur es h; cases h
  | succ fuel ih =>
    intro cur es h
    revert h
    show (match p cur with
      | none => none
      | some prev =>
        if prev = c0 then some [(prev, cur)]
        else (cycleWalk p c0 fuel prev).map (fun l => (prev, cur) :: l)) =
        some es → _
    cases hp : p cur with
    | none => intro h; cases h
    | some prev =>
      show (if prev = c0 then some [(prev, cur)]
          else (cycleWalk p c0 fuel prev).map (fun l => (prev, cur) :: l)) =
          some es → _
      by_cases hc : prev = c0
      · rw [if_pos hc]
        intro h
        have hes : [(prev, cur)] = es := by injection h
        rw [← hes]
        refine ⟨by simp, by simp, ?_, by simp⟩
        simp [hc]
      · rw [if_neg hc]
        intro h
        rw [Option.map_eq_some'] at h
        obtain ⟨l, hl, rfl⟩ := h
        obtain ⟨hne, hhead, hlast, hchain⟩ := ih hl
        rcases l with _ | ⟨b, t⟩
        · exact absurd rfl hne
        · refine ⟨by simp, by simp, ?_, ?_⟩
          · rw [List.getLast?_cons_cons]
            exact hlast
          · rw [List.chain'_cons]
            refine ⟨?_, hchain⟩
            have hb : some b.2 = some prev := by simpa using hhead
            injection hb

theorem cycleWalk_iter {p : α → Option α} {c0 : α} :
    ∀ {fuel : Nat} {cur : α} {es : List (α × α)},
      cycleWalk p c0 fuel cur = some es →
      iteratePred p es.length cur = some c0 := by
  intro fuel
  induction fuel with
  | zero => intro cur es h; cases h
  | succ fuel ih =>
    intro cur es h
    revert h
    show (match p cur with
      | none => none
      | some prev =>
        if prev = c0 then some [(prev, cur)]
        else (cycleWalk p c0 fuel prev).map (fun l => (prev, cur) :: l)) =
        some es → _
    cases hp : p cur with
    | none => intro h; cases h
    | some prev =>
      show (if prev = c0 then some [(prev, cur)]
          else (cycleWalk p c0 fuel prev).map (fun l => (prev, cur) :: l)) =
          some es → _
      by_cases hc : prev = c0
      · rw [if_pos hc]
        intro h
        have hes : [(prev, cur)] = es := by injection h
        rw [← hes]
        show (match p cur with
          | none => none
          | some y => iteratePred p 0 y) = some c0
        rw [hp, hc]
        rfl
      · rw [if_neg hc]
        intro h
        rw [Option.map_eq_some'] at h
        obtain ⟨l, hl, rfl⟩ := h
        show (match p cur with
          | none => none
          | some y => iteratePred p l.length y) = some c0
        rw [hp]
        exact ih hl

theorem cycleWalk_weight (g : DiGraph α) (st : BFState α) {c0 : α} :
    ∀ {fuel : Nat} {cur : α} {es : List (α × α)},
      cycleWalk st.pred c0 fuel cur = some es →
      cycleEdgesWeight g es = predWalkWeight g st es.length cur := by
  intro fuel
  induction fuel with
  | zero => intro cur es h; cases h
  | succ fuel ih =>
    intro cur es h
    revert h
    show (match st.pred cur with
      | none => none
      | some prev =>
        if prev = c0 then some [(prev, cur)]
        else (cycleWalk st.pred c0 fuel prev).map (fun l => (prev, cur) :: l)) =
        some es → _
    cases hp : st.pred cur with
    | none => intro h; cases h
    | some prev =>
      show (if prev = c0 then some [(prev, cur)]
          else (cycleWalk st.pred c0 fuel prev).map (fun l => (prev, cur) :: l)) =
          some es → _
      by_cases hc : prev = c0
      · rw [if_pos hc]
        intro h
        have hes : [(prev, cur)] = es := by injection h
        rw [← hes]
        have hr : predWalkWeight g st 1 cur =
            (match edgeWeight g prev cur, (some 0 : Option ℚ) with
             | some w, some rest => some (w + rest)
             | _, _ => none) := by
          show (match st.pred cur with
            | none => none
            | some u =>
              match edgeWeight g u cur, predWalkWeight g st 0 u with
              | some w, some rest => some (w + rest)
              | _, _ => none) =
            (match edgeWeight g prev cur, (some 0 : Option ℚ) with
             | some w, some rest => some (w + rest)
             | _, _ => none)
          rw [hp]
          rfl
        show cycleEdgesWeight g [(prev, cur)] = predWalkWeight g st 1 cur
        rw [hr]
        rfl
      · rw [if_neg hc]
        intro h
        rw [Option.map_eq_some'] at h
        obtain ⟨l, hl, rfl⟩ := h
        have hih := ih hl
        have hr : predWalkWeight g st ((prev, cur) :: l).length cur =
            (match edgeWeight g prev cur, predWalkWeight g st l.length prev with
             | some w, some rest => some (w + rest)
             | _, _ => none) := by
          show (match st.pred cur with
            | none => none
            | some u =>
              match edgeWeight g u cur, predWalkWeight g st l.length u with
              | some w, some rest => some (w + rest)
              | _, _ => none) =
            (match edgeWeight g prev cur, predWalkWeight g st l.length prev with
             | some w, some rest => some (w + rest)
             | _, _ => none)
          rw [hp]
        rw [hr, ← hih]
        rfl

/-- When detection fires, a completed run pins down the anchor walk and the
cycle extraction exactly. -/
theorem bellman_ford_cycle_decomp {g : DiGraph α} {s : α} {d : α → Option ℚ}
    {p : α → Option α} {c : List (α × α)} {v : α}
    (hdet : detect g (bfRelaxed g s) = some v)
    (h : bellman_ford g s = some (d, p, c)) :
    ∃ c0, iteratePred (bfRelaxed g s).pred g.nodes.length v = some c0 ∧
      cycleWalk (bfRelaxed g s).pred c0 (g.nodes.length + 1) c0 = some c := by
  have h2 : (match detect g (bfRelaxed g s) with
      | none => some ((bfRelaxed g s).dist, (bfRelaxed g s).pred, ([] : List (α × α)))
      | some v =>
        match iteratePred (bfRelaxed g s).pred g.nodes.length v with
        | none => none
        | some c0 =>
          Option.map (fun es => ((bfRelaxed g s).dist, (bfRelaxed g s).pred, es))
            (cycleWalk (bfRelaxed g s).pred c0 (g.nodes.length + 1) c0)) =
      some (d, p, c) := h
  rw [hdet] at h2
  have h3 : (match iteratePred (bfRelaxed g s).pred g.nodes.length v with
      | none => none
      | some c0 =>
        Option.map (fun es => ((bfRelaxed g s).dist, (bfRelaxed g s).pred, es))
          (cycleWalk (bfRelaxed g s).pred c0 (g.nodes.length + 1) c0)) =
      some (d, p, c) := h2
  cases hiter : iteratePred (bfRelaxed g s).pred g.nodes.length v with
  | none =>
    rw [hiter] at h3
    have h4 : (none : Option ((α → Option ℚ) × (α → Option α) × List (α × α))) =
        some (d, p, c) := h3
    cases h4
  | some c0 =>
    rw [hiter] at h3
    have h4 : Option.map
        (fun es => ((bfRelaxed g s).dist, (bfRelaxed g s).pred, es))
        (cycleWalk (bfRelaxed g s).pred c0 (g.nodes.length + 1) c0) =
        some (d, p, c) := h3
    obtain ⟨es, hes, heq⟩ := Option.map_eq_some'.mp h4
    refine ⟨c0, rfl, ?_⟩
    have hc : es = c := congrArg (fun t => t.2.2) heq
    rw [← hc]
    exact hes

/-! ## Claim C2: the NegativeCycle outcome -/

/-- C2: on a graph with a negative cycle reachable from the source, whenever
`bellman_ford` completes (the extraction can also crash or diverge), the
returned `cycle_edges` list is non-empty, consecutive edges are linked
backward (each next edge's target is the previous edge's source), the walk
closes with the FIRST edge's target equal to the LAST edge's source (the
reverse of the claimed orientation), and its total graph weight is strictly
negative. -/
theorem claim_C2 (g : DiGraph α) (s : α) (hwf : AdjWF g.adj)
    (hneg : NegCycleReachable g s) (ces : List (α × α))
    (hrun : bfCycle g s = some ces) :
    ces ≠ [] ∧
    List.Chain' (fun e1 e2 => e2.2 = e1.1) ces ∧
    (∃ c0, ces.head?.map Prod.snd = some c0 ∧
      ces.getLast?.map Prod.fst = some c0) ∧
    ∃ W, cycleEdgesWeight g ces = some W ∧ W < 0 := by
  obtain ⟨r, hr, hproj⟩ := Option.map_eq_some'.mp hrun
  obtain ⟨d, p, c⟩ := r
  have hc : c = ces := hproj
  subst hc
  obtain ⟨v, hdet⟩ := detect_some_of_negCycle hwf hneg
  obtain ⟨c0, hiter, hwalk⟩ := bellman_ford_cycle_decomp hdet hr
  obtain ⟨hne, hhead, hlast, hchain⟩ := cycleWalk_struct hwalk
  have hcyc : iteratePred (bfRelaxed g s).pred c.length c0 = some c0 :=
    cycleWalk_iter hwalk
  have hlen : 1 ≤ c.length := by
    rcases c with _ | ⟨b, t⟩
    · exact absurd rfl hne
    · simp
  obtain ⟨W, hW, hWneg⟩ := bfRelaxed_predCyclesNeg hwf s c0 c.length hlen hcyc
  refine ⟨hne, hchain, ⟨c0, hhead, hlast⟩, W, ?_, hWneg⟩
  rw [cycleWalk_weight g (bfRelaxed g s) hwalk]
  exact hW

/-- C2 counterexample: on scenario 2 the run completes with the list
`[(C,A), (B,C), (A,B)]`, whose LAST edge's target `B` differs from its
FIRST edge's source `C` — the claimed closure orientation fails (the walk
closes the other way round). -/
theorem claim_C2_counterexample :
    NegCycleReachable exNegCycle "U" ∧
    bfCycle exNegCycle "U" = some [("C", "A"), ("B", "C"), ("A", "B")] ∧
    ([("C", "A"), ("B", "C"), ("A", "B")] : List (String × String)).getLast?.map
      Prod.snd = some "B" ∧
    ([("C", "A"), ("B", "C"), ("A", "B")] : List (String × String)).head?.map
      Prod.fst = some "C" ∧
    "B" ≠ "C" := by
  refine ⟨?_, by decide!, by decide!, by decide!, by decide!⟩
  exact ⟨[("U", "A", -2)], "A",
    [("A", "B", (-3)/2), ("B", "C", -3), ("C", "A", (-5)/2)],
    by decide!, ⟨by decide!, by decide!, by decide!⟩, by decide!⟩

theorem claim_C2_witness :
    ([("C", "A"), ("B", "C"), ("A", "B")] : List (String × String)) ≠ [] ∧
    List.Chain' (fun e1 e2 => e2.2 = e1.1)
      ([("C", "A"), ("B", "C"), ("A", "B")] : List (String × String)) ∧
    (∃ c0, ([("C", "A"), ("B", "C"), ("A", "B")] :
        List (String × String)).head?.map Prod.snd = some c0 ∧
      ([("C", "A"), ("B", "C"), ("A", "B")] :
        List (String × String)).getLast?.map Prod.fst = some c0) ∧
    ∃ W, cycleEdgesWeight exNegCycle [("C", "A"), ("B", "C"), ("A", "B")] =
        some W ∧ W < 0 :=
  claim_C2 exNegCycle "U" (fromEdges_WF _)
    ⟨[("U", "A", -2)], "A",
      [("A", "B", (-3)/2), ("B", "C", -3), ("C", "A", (-5)/2)],
      by decide!, ⟨by decide!, by decide!, by decide!⟩, by decide!⟩
    [("C", "A"), ("B", "C"), ("A", "B")] (by decide!)

/-! ## Claim C8: the concrete acyclic scenario -/

/-- C8: on the seven-edge example graph, `run("U")` is Acyclic,
`distance["F"] == -8.5`, and reconstruction from `"U"` to `"F"` yields
`["U", "A", "B", "C", "F"]`. -/
theorem claim_C8 :
    bfCycle exAcyclic "U" = some [] ∧
    bfDistAt exAcyclic "U" "F" = some (some ((-17) / 2)) ∧
    runReconstruct exAcyclic "U" "F" =
      some (some (some ["U", "A", "B", "C", "F"])) := by
  refine ⟨by decide!, by decide!, by decide!⟩

end PG
